import Mathlib

/-!
# Verification of the Tui-browser reconciliation core (`src/merger.py`)

This file shallowly embeds the data model and the operations of the
intelligent merger (Lynx text view + Playwright snapshot reconciliation)
and proves properties of the embedding.

Conventions of the embedding:
* Python `dict[int, V]` (insertion ordered, unique keys, assignment
  overwrites in place) is modelled as an association list
  `List (Int × V)` together with `dinsert` / `dget` / `keys`.
* Python strings are Lean `String`s; single-character `str.split`,
  `str.replace`, `str.lower`, slicing `[:n]` and substring tests are
  given explicit executable definitions (`splitChar`, `pyReplaceChar`,
  `pyLower`, `pyTake`, `strContains`) matching Python semantics on the
  inputs the program uses.
* Python list indexing (which allows negative indices and raises
  `IndexError` out of range) is modelled by `pyIndex` / `pyUpdate`
  returning `Option`; a raised exception surfaces as `none` from the
  enclosing operation.
-/

namespace TuiBrowser

/-! ## Python string primitives -/

/-- Lowercasing, `str.lower` (agrees with Python on the ASCII data used here). -/
def pyLower (s : String) : String :=
  String.mk (s.toList.map Char.toLower)

/-- `needle` occurs as a contiguous substring of `hay` (Python `needle in hay`),
on the underlying character lists. -/
def isInfixL (needle : List Char) : List Char → Bool
  | [] => needle.isEmpty
  | c :: rest => List.isPrefixOf needle (c :: rest) || isInfixL needle rest

/-- Python `needle in hay` on strings. -/
def strContains (hay needle : String) : Bool :=
  isInfixL needle.toList hay.toList

/-- Python slice `s[:n]`. -/
def pyTake (s : String) (n : Nat) : String :=
  String.mk (s.toList.take n)

/-- Python `s.replace(c, rep)` for a single-character pattern `c`. -/
def pyReplaceChar (c : Char) (rep : String) (s : String) : String :=
  String.mk (s.toList.foldr (fun ch acc => if ch = c then rep.toList ++ acc else ch :: acc) [])

/-- Python `str.split(sep)` for a single-character separator, on char lists.
`"".split(sep) = [""]`; a trailing separator yields a trailing empty part. -/
def splitCharList (sep : Char) : List Char → List (List Char)
  | [] => [[]]
  | c :: rest =>
    let r := splitCharList sep rest
    if c = sep then [] :: r
    else
      match r with
      | h :: t => (c :: h) :: t
      | [] => [[c]]

/-- Python `s.split(sep)` for a single-character separator. -/
def splitChar (sep : Char) (s : String) : List String :=
  (splitCharList sep s.toList).map String.mk

/-- Python `'\n'.join(lines)`. -/
def joinLines : List String → String
  | [] => ""
  | [l] => l
  | l :: rest => l ++ "\n" ++ joinLines rest

/-- Decimal digit run to a number; `none` if empty or a non-digit occurs. -/
def digitsToNat? (cs : List Char) : Option Nat :=
  if cs = [] then none
  else cs.foldl (fun acc? c =>
    acc?.bind (fun acc => if c.isDigit then some (acc * 10 + (c.toNat - 48)) else none)) (some 0)

/-- Python `int(s)` on a plain decimal string with optional sign and
surrounding spaces; `none` models a raised `ValueError`. -/
def pyInt (s : String) : Option Int :=
  let cs := ((s.toList.dropWhile (fun c => c = ' ')).reverse.dropWhile (fun c => c = ' ')).reverse
  match cs with
  | '-' :: rest => (digitsToNat? rest).map (fun n => -(n : Int))
  | '+' :: rest => (digitsToNat? rest).map (fun n => (n : Int))
  | _ => (digitsToNat? cs).map (fun n => (n : Int))

/-! ## Python `dict[int, V]` model -/

/-- `d[k] = v` on an insertion-ordered dict: overwrite in place, else append. -/
def dinsert {α : Type} : List (Int × α) → Int → α → List (Int × α)
  | [], k, v => [(k, v)]
  | (k0, v0) :: rest, k, v =>
    if k0 = k then (k, v) :: rest else (k0, v0) :: dinsert rest k v

/-- `d.get(k)`. -/
def dget {α : Type} : List (Int × α) → Int → Option α
  | [], _ => none
  | (k0, v0) :: rest, k => if k0 = k then some v0 else dget rest k

/-- `d.keys()` in insertion order. -/
def keys {α : Type} (m : List (Int × α)) : List Int :=
  m.map Prod.fst

/-- `max(d.keys())` (`none` on an empty dict, where Python would raise). -/
def keysMax {α : Type} : List (Int × α) → Option Int
  | [] => none
  | (k, _) :: rest => some (rest.foldl (fun acc p => max acc p.1) k)

/-! ## Data model (`fetcher.py`, `merger.py` dataclasses)

`PlaywrightElement.position` and `.attributes` (a float dictionary and a
free-form attribute map) are never read by the merger and are omitted. -/

structure PlaywrightElement where
  index : Int
  type : String
  text : String
  href : Option String
  selector : String
  visible : Bool
  deriving DecidableEq, Repr

structure ElementMapping where
  number : Int
  type : String
  text : String
  selector : Option String
  url : Option String
  action : String
  deriving DecidableEq, Repr

structure LynxResult where
  text : String
  links : List (Int × String)
  success : Bool
  deriving DecidableEq, Repr

structure PlaywrightResult where
  elements : List PlaywrightElement
  content : String
  success : Bool
  deriving DecidableEq, Repr

structure MergedResult where
  text : String
  mapping : List (Int × ElementMapping)
  success : Bool
  error : Option String
  deriving DecidableEq, Repr

/-- One advisor placement decision, with the Python `dict.get` defaults
already resolved: `show` ← `get('show', False)`, `line` ← `get('line', 0)`,
`position` ← `get('position', 'after')`, `format` ← `get('format', '[N:button]')`.
The field `show_` models the JSON key `"show"` (a Lean keyword). -/
structure Decision where
  show_ : Bool
  line : Int
  position : String
  format : String
  deriving DecidableEq, Repr

/-! ## Preprocessor (`merger.py` lines 31-131) -/

/-- The inner loop of `match_by_url`: first Playwright element of type `'a'`
whose `href` equals `url` (the `for el in pw_elements ... break` scan). -/
def findLink (url : String) : List PlaywrightElement → Option PlaywrightElement
  | [] => none
  | el :: rest =>
    if el.type = "a" ∧ el.href = some url then some el else findLink url rest

/-- One iteration of the outer loop of `match_by_url`: on a match, store the
`ElementMapping` under the Lynx number (lines 44-56). -/
def matchStep (pw_elements : List PlaywrightElement)
    (mapping : List (Int × ElementMapping)) (p : Int × String) :
    List (Int × ElementMapping) :=
  match findLink p.2 pw_elements with
  | some el =>
    dinsert mapping p.1
      { number := p.1, type := "link",
        text := if el.text = "" then p.2 else el.text,
        selector := some el.selector, url := some p.2, action := "navigate" }
  | none => mapping

/-- `Preprocessor.match_by_url` (lines 34-58). -/
def match_by_url (lynx_links : List (Int × String))
    (pw_elements : List PlaywrightElement) : List (Int × ElementMapping) :=
  lynx_links.foldl (matchStep pw_elements) []

/-- `{m.url for m in mapping.values() if m.url}`: the Python truthiness test
drops both `None` and the empty string. -/
def mappedHrefs (mapping : List (Int × ElementMapping)) : List String :=
  mapping.filterMap (fun p =>
    match p.2.url with
    | some u => if u = "" then none else some u
    | none => none)

/-- Python `el.href not in mapped_hrefs` is `true` when `href` is `None`. -/
def hrefMatched (h : Option String) (s : List String) : Bool :=
  match h with
  | none => false
  | some u => s.contains u

/-- `Preprocessor.find_missing_elements` (lines 60-88). -/
def find_missing_elements (pw_elements : List PlaywrightElement)
    (mapping : List (Int × ElementMapping)) : List PlaywrightElement :=
  let hrefs := mappedHrefs mapping
  pw_elements.filter (fun el =>
    el.visible &&
    (el.text != "" || el.type == "input") &&
    (["button", "input", "textarea", "select"].contains el.type ||
      (el.type == "a" && !(hrefMatched el.href hrefs))))

/-- The per-element rule of `Preprocessor.categorize_elements` (lines 98-129).
The source also computes `text_lower = el.text.lower()` but never reads it;
all substring tests are over the selector alone. -/
def categorize_one (el : PlaywrightElement) : String :=
  let selector_lower := pyLower el.selector
  if ["ad", "track", "analytics", "pixel"].any (fun x => strContains selector_lower x) then
    "ignore"
  else if ["nav", "header", "menu"].any (fun x => strContains selector_lower x) then
    "navigation"
  else if ["footer", "copyright"].any (fun x => strContains selector_lower x) then
    "secondary"
  else if el.text == "" && el.type != "input" then
    "ignore"
  else if el.type == "button" && decide (el.text.length < 3) then
    "unknown"
  else if ["input", "textarea", "select"].contains el.type then
    "primary"
  else
    "unknown"

/-- `Preprocessor.categorize_elements` (lines 90-131): a dict keyed by `el.index`. -/
def categorize_elements (elements : List PlaywrightElement) : List (Int × String) :=
  elements.foldl (fun cats el => dinsert cats el.index (categorize_one el)) []

/-! ## Advisor layer (`llm.py` lines 277-307, `merger.py` lines 140-204)

The external text-generation call and the JSON parse itself happen outside
this core (network + `json.loads`); the embedding models their observable
outcome. `LLMOutcome.failure` is a generation that did not succeed
(unreachable / erroring capability), `LLMOutcome.badJson` a reply that did
not parse as JSON, `LLMOutcome.good` a parsed JSON object whose fields are
placement decisions keyed by strings. -/

inductive LLMOutcome where
  | failure (err : String)
  | badJson (raw : String)
  | good (fields : List (String × Decision))
  deriving DecidableEq, Repr

/-- The result dict of `LLMManager.generate_json`: either a dict carrying an
`"error"` key, or the parsed object. -/
inductive JsonResp where
  | err (msg : String)
  | ok (fields : List (String × Decision))
  deriving DecidableEq, Repr

/-- `LLMManager.generate_json` (llm.py lines 277-307): a failed generation
yields `{"error": ...}`, an unparseable reply yields `{"error": "Invalid JSON: ..."}`,
otherwise the parsed object is returned. -/
def generate_json : LLMOutcome → JsonResp
  | .failure err => .err err
  | .badJson raw => .err ("Invalid JSON: " ++ raw)
  | .good fields => .ok fields

/-- `int(key.split("_")[1])` guarded by `key.startswith("el_")`
(merger.py lines 197-201); `none` models the `except ... continue`. -/
def elKeyIndex (key : String) : Option Int :=
  if List.isPrefixOf "el_".toList key.toList then
    pyInt (String.mk ((splitCharList '_' key.toList).getD 1 []))
  else none

/-- `LLMPlacer.place_elements` after the external call (merger.py lines 188-204):
an error response yields the empty placement dict, otherwise `el_X` keys are
converted back to integer indices. -/
def place_elements (response : JsonResp) : List (Int × Decision) :=
  match response with
  | .err _ => []
  | .ok fields =>
    fields.foldl (fun placements kv =>
      match elKeyIndex kv.1 with
      | some idx => dinsert placements idx kv.2
      | none => placements) []

/-! ## Formatter (`merger.py` lines 244-307) -/

/-- Action derivation of `Formatter.inject_elements` (lines 290-294). -/
def injectorAction (el : PlaywrightElement) : String :=
  let action := if el.type = "a" then "navigate" else "click"
  if el.type = "input" ∨ el.type = "textarea" then "fill"
  else if el.type = "button" ∧ strContains (pyLower el.text) "submit" = true then "submit"
  else action

/-- The `ElementMapping` built for an injected element (lines 296-303). -/
def mkInjected (el : PlaywrightElement) (num : Int) : ElementMapping :=
  { number := num, type := el.type, text := el.text,
    selector := some el.selector, url := el.href, action := injectorAction el }

/-- The line clamp of lines 274-276: only the upper bound is checked
(`if line_num >= len(lines): line_num = len(lines) - 1`). -/
def clampLine (line : Int) (nlines : Nat) : Int :=
  if (nlines : Int) ≤ line then (nlines : Int) - 1 else line

/-- Python list index resolution: non-negative in range, negative counts from
the end, otherwise `IndexError` (`none`). -/
def pyIndex (len : Nat) (i : Int) : Option Nat :=
  if 0 ≤ i ∧ i < (len : Int) then some i.toNat
  else if -(len : Int) ≤ i ∧ i < 0 then some ((len : Int) + i).toNat
  else none

/-- `l[i] = f(l[i])` with Python indexing; `none` models `IndexError`. -/
def pyUpdate (l : List String) (i : Int) (f : String → String) : Option (List String) :=
  match pyIndex l.length i with
  | some n => some (l.set n (f (l.getD n "")))
  | none => none

/-- Stable insertion into a list sorted by descending `line`; an element is
placed before the first entry whose `line` is not larger, so that equal keys
keep their original relative order (Python's stable `sort(reverse=True)`). -/
def insertByLine (x : Int × Decision) : List (Int × Decision) → List (Int × Decision)
  | [] => [x]
  | y :: ys => if y.2.line ≤ x.2.line then x :: y :: ys else y :: insertByLine x ys

/-- `placement_items.sort(key=λx: x[1].get('line', 0), reverse=True)` (line 264):
stable descending sort by requested line. -/
def sortByLineDesc : List (Int × Decision) → List (Int × Decision)
  | [] => []
  | x :: xs => insertByLine x (sortByLineDesc xs)

/-- `marker = format_str.replace('N', str(next_num))` (line 280). -/
def markerOf (next_num : Int) (d : Decision) : String :=
  pyReplaceChar 'N' (toString next_num) d.format

/-- Attach a marker to a line, before or after per the decision (lines 283-287). -/
def attachMarker (d : Decision) (marker old : String) : String :=
  if d.position = "before" then marker ++ " " ++ old else old ++ " " ++ marker

/-- The main loop of `Formatter.inject_elements` (lines 268-305): for each
show-decision, look the element up by index (skipping absent ones before any
number is allocated), clamp the line, build the marker by substituting the
fresh number for `N`, attach it before/after the target line, record the
mapping entry, and advance the fresh number. A Python `IndexError` on the
line assignment surfaces as `none`. -/
def inject_loop (missing : List PlaywrightElement) :
    List (Int × Decision) → List String → Int → List (Int × ElementMapping) →
    Option (List String × List (Int × ElementMapping))
  | [], lines, _, m => some (lines, m)
  | item :: rest, lines, next_num, m =>
    match missing.find? (fun el => el.index == item.1) with
    | none => inject_loop missing rest lines next_num m
    | some element =>
      match pyUpdate lines (clampLine item.2.line lines.length)
          (attachMarker item.2 (markerOf next_num item.2)) with
      | none => none
      | some lines2 =>
        inject_loop missing rest lines2 (next_num + 1)
          (dinsert m next_num (mkInjected element next_num))

/-- `next_num = max(base_mapping.keys()) + 1 if base_mapping else 1` (line 256). -/
def nextNum (base_mapping : List (Int × ElementMapping)) : Int :=
  match keysMax base_mapping with
  | some k => k + 1
  | none => 1

/-- `Formatter.inject_elements` (lines 247-307): split the text into lines,
keep the show-decisions sorted by descending requested line, run the loop
starting from the fresh number, and rejoin. -/
def inject_elements (lynx_text : String) (missing : List PlaywrightElement)
    (placements : List (Int × Decision)) (base_mapping : List (Int × ElementMapping)) :
    Option (String × List (Int × ElementMapping)) :=
  match inject_loop missing (sortByLineDesc (placements.filter (fun p => p.2.show_)))
      (splitChar '\n' lynx_text) (nextNum base_mapping) base_mapping with
  | none => none
  | some (ls, m) => some (joinLines ls, m)

/-! ## Degraded fallback (`merger.py` lines 394-440) -/

/-- Action derivation of `_playwright_only_fallback` (lines 420-422); note it
has no `submit` rule, unlike `injectorAction`. -/
def fallbackAction (el : PlaywrightElement) : String :=
  let action := if el.type = "a" then "navigate" else "click"
  if el.type = "input" ∨ el.type = "textarea" then "fill" else action

/-- The `ElementMapping` built at position `i` of the fallback loop (lines 424-431). -/
def fallbackEntry (i : Nat) (el : PlaywrightElement) : ElementMapping :=
  { number := Int.ofNat i, type := el.type, text := pyTake el.text 50,
    selector := some el.selector, url := el.href, action := fallbackAction el }

/-- The marker line appended for position `i` (line 434). -/
def fallbackMarker (i : Nat) (el : PlaywrightElement) : String :=
  "\n[" ++ toString i ++ "] " ++ pyTake el.text 50

/-- The numbering loop of `_playwright_only_fallback` (lines 417-434):
`for i, el in enumerate(pw_result.elements[:50], start=1)`, acting only on
visible elements but advancing `i` for every element. -/
def fallbackLoop : Nat → List PlaywrightElement → String → List (Int × ElementMapping) →
    String × List (Int × ElementMapping)
  | _, [], text, m => (text, m)
  | i, el :: rest, text, m =>
    if el.visible then
      fallbackLoop (i + 1) rest (text ++ fallbackMarker i el)
        (dinsert m (Int.ofNat i) (fallbackEntry i el))
    else fallbackLoop (i + 1) rest text m

/-- `IntelligentMerger._playwright_only_fallback` (lines 394-440). The
HTML-to-text scrub of lines 404-414 (regex tag stripping, entity decoding,
whitespace collapse, 80-column wrap) runs before the numbering loop and is
kept abstract as `cleanText`, since no downstream step inspects its output. -/
def playwright_only_fallback (cleanText : String → String)
    (pw : PlaywrightResult) : MergedResult :=
  { text := (fallbackLoop 1 (pw.elements.take 50) (cleanText pw.content) []).1,
    mapping := (fallbackLoop 1 (pw.elements.take 50) (cleanText pw.content) []).2,
    success := true, error := none }

/-! ## MergeOrchestrator (`merger.py` lines 310-392) -/

/-- Step 1 of `merge` (line 345): the deterministic URL matching. -/
def mergeBase (lynx : LynxResult) (pw : PlaywrightResult) : List (Int × ElementMapping) :=
  match_by_url lynx.links pw.elements

/-- Step 2 of `merge` (line 348): elements the text source missed. -/
def mergeMissing (lynx : LynxResult) (pw : PlaywrightResult) : List PlaywrightElement :=
  find_missing_elements pw.elements (mergeBase lynx pw)

/-- Step 3 of `merge` (line 359): heuristic categories of the missing elements. -/
def mergeCategories (lynx : LynxResult) (pw : PlaywrightResult) : List (Int × String) :=
  categorize_elements (mergeMissing lynx pw)

/-- `unknown_elements` (line 362): the bucket sent to the advisor. -/
def mergeUnknown (lynx : LynxResult) (pw : PlaywrightResult) : List PlaywrightElement :=
  (mergeMissing lynx pw).filter
    (fun el => dget (mergeCategories lynx pw) el.index == some "unknown")

/-- `primary_elements` (line 370): the bucket auto-placed at the end. -/
def mergePrimary (lynx : LynxResult) (pw : PlaywrightResult) : List PlaywrightElement :=
  (mergeMissing lynx pw).filter
    (fun el => dget (mergeCategories lynx pw) el.index == some "primary")

/-- The auto-placement decision for a primary element (lines 373-378):
after the last line of the Lynx text. -/
def primaryDecision (lynx_text : String) (el : PlaywrightElement) : Decision :=
  { show_ := true, line := ((splitChar '\n' lynx_text).length : Int) - 1,
    position := "after", format := "[N:" ++ el.type ++ "]" }

/-- Step 4 of `merge` (lines 365-367): the advisor is consulted only when LLM
use is enabled (the placer exists exactly when it is) and the unknown bucket
is non-empty; its outcome is decoded by `generate_json`/`place_elements`. -/
def mergeLLMPlacements (advisor : String → List PlaywrightElement → LLMOutcome)
    (use_llm : Bool) (lynx : LynxResult) (pw : PlaywrightResult) : List (Int × Decision) :=
  if use_llm = true ∧ mergeUnknown lynx pw ≠ [] then
    place_elements (generate_json (advisor lynx.text (mergeUnknown lynx pw)))
  else []

/-- Lines 370-378: primary elements are added to the placement dict after the
advisor's decisions. -/
def mergeAllPlacements (advisor : String → List PlaywrightElement → LLMOutcome)
    (use_llm : Bool) (lynx : LynxResult) (pw : PlaywrightResult) : List (Int × Decision) :=
  (mergePrimary lynx pw).foldl
    (fun pl el => dinsert pl el.index (primaryDecision lynx.text el))
    (mergeLLMPlacements advisor use_llm lynx pw)

/-- `IntelligentMerger.merge` (lines 319-392), parameterised by the abstract
HTML scrub of the fallback and by the advisor outcome (`use_llm` models the
constructor flag; `self.placer` is `None` exactly when `use_llm` is false).
`none` models an uncaught Python exception (possible only via `inject_elements`). -/
def merge (cleanText : String → String)
    (advisor : String → List PlaywrightElement → LLMOutcome) (use_llm : Bool)
    (lynx : LynxResult) (pw : PlaywrightResult) : Option MergedResult :=
  if lynx.success = false ∧ pw.success = false then
    some { text := "", mapping := [], success := false,
           error := some "Both Lynx and Playwright failed" }
  else if lynx.success = false then
    some (playwright_only_fallback cleanText pw)
  else if mergeMissing lynx pw = [] then
    some { text := lynx.text, mapping := mergeBase lynx pw, success := true, error := none }
  else
    match inject_elements lynx.text (mergeMissing lynx pw)
        (mergeAllPlacements advisor use_llm lynx pw) (mergeBase lynx pw) with
    | none => none
    | some r => some { text := r.1, mapping := r.2, success := true, error := none }

/-! ## Generic lemmas: the dict model -/

theorem dinsert_of_not_mem {α : Type} (m : List (Int × α)) (k : Int) (v : α)
    (h : k ∉ keys m) : dinsert m k v = m ++ [(k, v)] := by
  induction m with
  | nil => rfl
  | cons p rest ih =>
    simp only [keys, List.map_cons, List.mem_cons] at h
    push_neg at h
    simp only [dinsert, if_neg (Ne.symm h.1), List.cons_append, List.cons.injEq, true_and]
    exact ih h.2

theorem mem_keys_dinsert {α : Type} {m : List (Int × α)} {k j : Int} {v : α}
    (h : j ∈ keys (dinsert m k v)) : j = k ∨ j ∈ keys m := by
  induction m with
  | nil => simpa [dinsert, keys] using h
  | cons p rest ih =>
    rcases p with ⟨k0, v0⟩
    by_cases hk : k0 = k
    · subst hk
      rw [show dinsert ((k0, v0) :: rest) k0 v = (k0, v) :: rest from by
        simp [dinsert]] at h
      simp only [keys, List.map_cons, List.mem_cons] at h ⊢
      tauto
    · rw [show dinsert ((k0, v0) :: rest) k v = (k0, v0) :: dinsert rest k v from by
        simp [dinsert, hk]] at h
      simp only [keys, List.map_cons, List.mem_cons] at h ⊢
      rcases h with h | h
      · tauto
      · rcases ih h with h' | h' <;> tauto

theorem nodup_keys_dinsert {α : Type} (m : List (Int × α)) (k : Int) (v : α)
    (h : (keys m).Nodup) : (keys (dinsert m k v)).Nodup := by
  induction m with
  | nil => simp [dinsert, keys]
  | cons p rest ih =>
    rcases p with ⟨k0, v0⟩
    simp only [keys, List.map_cons, List.nodup_cons] at h
    by_cases hk : k0 = k
    · subst hk
      simpa [dinsert, keys, List.nodup_cons] using h
    · simp only [dinsert, if_neg hk, keys, List.map_cons, List.nodup_cons]
      refine ⟨fun hmem => ?_, ih h.2⟩
      rcases mem_keys_dinsert hmem with h' | h'
      · exact hk h'
      · exact h.1 h'

theorem mem_dinsert {α : Type} {m : List (Int × α)} {k : Int} {v : α} {q : Int × α}
    (h : q ∈ dinsert m k v) : q = (k, v) ∨ q ∈ m := by
  induction m with
  | nil => simpa [dinsert] using h
  | cons p rest ih =>
    rcases p with ⟨k0, v0⟩
    by_cases hk : k0 = k
    · subst hk
      rw [show dinsert ((k0, v0) :: rest) k0 v = (k0, v) :: rest from by
        simp [dinsert]] at h
      rcases List.mem_cons.mp h with h | h
      · exact Or.inl h
      · exact Or.inr (List.mem_cons.mpr (Or.inr h))
    · rw [show dinsert ((k0, v0) :: rest) k v = (k0, v0) :: dinsert rest k v from by
        simp [dinsert, hk]] at h
      rcases List.mem_cons.mp h with h | h
      · exact Or.inr (List.mem_cons.mpr (Or.inl h))
      · rcases ih h with h' | h'
        · exact Or.inl h'
        · exact Or.inr (List.mem_cons.mpr (Or.inr h'))

theorem dget_dinsert_self {α : Type} (m : List (Int × α)) (k : Int) (v : α) :
    dget (dinsert m k v) k = some v := by
  induction m with
  | nil => simp [dinsert, dget]
  | cons p rest ih =>
    rcases p with ⟨k0, v0⟩
    by_cases hk : k0 = k
    · simp [dinsert, dget, hk]
    · simp [dinsert, dget, hk, ih]

theorem dget_dinsert_ne {α : Type} (m : List (Int × α)) (k k' : Int) (v : α)
    (h : k' ≠ k) : dget (dinsert m k v) k' = dget m k' := by
  have hne : ¬k = k' := fun hc => h hc.symm
  induction m with
  | nil => simp [dinsert, dget, hne]
  | cons p rest ih =>
    rcases p with ⟨k0, v0⟩
    by_cases hk : k0 = k
    · subst hk
      simp [dinsert, dget, hne]
    · by_cases hk' : k0 = k'
      · simp [dinsert, dget, hk, hk', h]
      · simp [dinsert, dget, hk, hk', ih]

theorem length_dinsert_of_not_mem {α : Type} (m : List (Int × α)) (k : Int) (v : α)
    (h : k ∉ keys m) : (dinsert m k v).length = m.length + 1 := by
  rw [dinsert_of_not_mem m k v h]
  simp

/-! max of the key set -/

theorem foldl_max_le_init (l : List (Int × ElementMapping)) :
    ∀ a : Int, a ≤ l.foldl (fun acc p => max acc p.1) a := by
  induction l with
  | nil => intro a; simp
  | cons p rest ih =>
    intro a
    simpa using le_trans (le_max_left a p.1) (ih (max a p.1))

theorem foldl_max_mem (l : List (Int × ElementMapping)) :
    ∀ a : Int, ∀ q ∈ l, q.1 ≤ l.foldl (fun acc p => max acc p.1) a := by
  induction l with
  | nil => intro a q hq; simp at hq
  | cons p rest ih =>
    intro a q hq
    rcases List.mem_cons.mp hq with h | h
    · subst h
      simpa using le_trans (le_max_right a q.1) (foldl_max_le_init rest (max a q.1))
    · simpa using ih (max a p.1) q h

/-- Every existing key is below the fresh-number start of the Injector. -/
theorem keys_lt_nextNum (m : List (Int × ElementMapping)) :
    ∀ j ∈ keys m, j < nextNum m := by
  intro j hj
  cases m with
  | nil => simp [keys] at hj
  | cons p rest =>
    simp only [nextNum, keysMax]
    have : j ≤ rest.foldl (fun acc q => max acc q.1) p.1 := by
      simp only [keys, List.map_cons, List.mem_cons] at hj
      rcases hj with h | h
      · subst h; exact foldl_max_le_init rest p.1
      · rcases List.mem_map.mp h with ⟨q, hq, rfl⟩
        exact foldl_max_mem rest p.1 q hq
    omega

/-! sorting is a permutation -/

theorem insertByLine_perm (x : Int × Decision) (l : List (Int × Decision)) :
    (insertByLine x l).Perm (x :: l) := by
  induction l with
  | nil => simp [insertByLine]
  | cons y ys ih =>
    by_cases h : y.2.line ≤ x.2.line
    · simp [insertByLine, h]
    · simp only [insertByLine, if_neg h]
      exact ((ih.cons y).trans (List.Perm.swap x y ys))

theorem sortByLineDesc_perm (l : List (Int × Decision)) :
    (sortByLineDesc l).Perm l := by
  induction l with
  | nil => simp [sortByLineDesc]
  | cons x xs ih =>
    exact (insertByLine_perm x (sortByLineDesc xs)).trans (ih.cons x)

/-! split / join bookkeeping -/

/-- Total character count of a list of lines. -/
def sumLen (ls : List String) : Nat := (ls.map String.length).sum

theorem splitCharList_ne_nil (sep : Char) (l : List Char) : splitCharList sep l ≠ [] := by
  cases l with
  | nil => simp [splitCharList]
  | cons c rest =>
    simp only [splitCharList]
    by_cases h : c = sep
    · simp [h]
    · simp only [if_neg h]
      cases hr : splitCharList sep rest with
      | nil => simp
      | cons a b => simp

theorem splitChar_ne_nil (sep : Char) (s : String) : splitChar sep s ≠ [] := by
  simp only [splitChar, ne_eq, List.map_eq_nil_iff]
  exact splitCharList_ne_nil sep s.toList

theorem splitCharList_sumLen (sep : Char) (l : List Char) :
    ((splitCharList sep l).map List.length).sum + (splitCharList sep l).length
      = l.length + 1 := by
  induction l with
  | nil => simp [splitCharList]
  | cons c rest ih =>
    simp only [splitCharList]
    by_cases h : c = sep
    · simp only [if_pos h, List.map_cons, List.sum_cons, List.length_cons, List.length_nil]
      omega
    · simp only [if_neg h]
      cases hr : splitCharList sep rest with
      | nil => exact absurd hr (splitCharList_ne_nil sep rest)
      | cons a b =>
        rw [hr] at ih
        simp only [List.map_cons, List.sum_cons, List.length_cons] at ih ⊢
        omega

theorem splitChar_sumLen (s : String) :
    sumLen (splitChar '\n' s) + (splitChar '\n' s).length = s.length + 1 := by
  have h := splitCharList_sumLen '\n' s.toList
  simp only [sumLen, splitChar, List.map_map, List.length_map]
  have hmap : (List.map (String.length ∘ String.mk) (splitCharList '\n' s.toList))
      = List.map List.length (splitCharList '\n' s.toList) := by
    apply List.map_congr_left
    intro a _
    rfl
  rw [hmap]
  exact h

theorem joinLines_length (ls : List String) (h : ls ≠ []) :
    (joinLines ls).length = sumLen ls + (ls.length - 1) := by
  induction ls with
  | nil => exact absurd rfl h
  | cons l rest ih =>
    cases rest with
    | nil => simp [joinLines, sumLen]
    | cons l2 rest2 =>
      have hne : l2 :: rest2 ≠ [] := by simp
      calc (joinLines (l :: l2 :: rest2)).length
          = (l ++ "\n" ++ joinLines (l2 :: rest2)).length := rfl
        _ = l.length + 1 + (joinLines (l2 :: rest2)).length := by
            rw [String.length_append, String.length_append]; rfl
        _ = l.length + 1 + (sumLen (l2 :: rest2) + ((l2 :: rest2).length - 1)) := by
            rw [ih hne]
        _ = sumLen (l :: l2 :: rest2) + ((l :: l2 :: rest2).length - 1) := by
            simp only [sumLen, List.map_cons, List.sum_cons, List.length_cons]
            omega

/-! list update bookkeeping -/

theorem sumLen_set (l : List String) (idx : Nat) (v : String) (h : idx < l.length) :
    sumLen (l.set idx v) + (l.getD idx "").length = sumLen l + v.length := by
  induction l generalizing idx with
  | nil => simp at h
  | cons x rest ih =>
    cases idx with
    | zero => simp [sumLen]; omega
    | succ n =>
      simp only [List.length_cons] at h
      have := ih n (by omega)
      simp only [List.set_cons_succ, sumLen, List.map_cons, List.sum_cons, List.getD_cons_succ] at this ⊢
      omega

theorem pyUpdate_some {l : List String} {i : Int} {f : String → String} {l' : List String}
    (h : pyUpdate l i f = some l') :
    ∃ idx, idx < l.length ∧ l' = l.set idx (f (l.getD idx "")) := by
  unfold pyUpdate at h
  cases hpi : pyIndex l.length i with
  | none => rw [hpi] at h; exact absurd h (by simp)
  | some n =>
    rw [hpi] at h
    refine ⟨n, ?_, by simpa using h.symm⟩
    unfold pyIndex at hpi
    by_cases h1 : 0 ≤ i ∧ i < (l.length : Int)
    · rw [if_pos h1] at hpi
      have : i.toNat = n := by simpa using hpi
      omega
    · rw [if_neg h1] at hpi
      by_cases h2 : -(l.length : Int) ≤ i ∧ i < 0
      · rw [if_pos h2] at hpi
        have : ((l.length : Int) + i).toNat = n := by simpa using hpi
        omega
      · rw [if_neg h2] at hpi; exact absurd hpi (by simp)

theorem pyUpdate_length {l : List String} {i : Int} {f : String → String} {l' : List String}
    (h : pyUpdate l i f = some l') : l'.length = l.length := by
  rcases pyUpdate_some h with ⟨idx, _, rfl⟩
  simp

theorem pyUpdate_sumLen {l : List String} {i : Int} {f : String → String} {l' : List String}
    {d : Nat} (hf : ∀ old, (f old).length = old.length + d)
    (h : pyUpdate l i f = some l') : sumLen l' = sumLen l + d := by
  rcases pyUpdate_some h with ⟨idx, hidx, rfl⟩
  have := sumLen_set l idx (f (l.getD idx "")) hidx
  rw [hf (l.getD idx "")] at this
  omega

theorem pyUpdate_isSome_of_range (l : List String) (i : Int) (f : String → String)
    (h0 : 0 ≤ i) (h1 : i < (l.length : Int)) : (pyUpdate l i f).isSome := by
  unfold pyUpdate pyIndex
  rw [if_pos ⟨h0, h1⟩]
  simp

/-- The clamp of the Injector keeps a non-negative request inside the line range. -/
theorem clampLine_mem_range (line : Int) (nlines : Nat) (h0 : 0 ≤ line) (h1 : 0 < nlines) :
    0 ≤ clampLine line nlines ∧ clampLine line nlines < (nlines : Int) := by
  unfold clampLine
  by_cases h : (nlines : Int) ≤ line
  · rw [if_pos h]; omega
  · rw [if_neg h]; omega

theorem attachMarker_length (d : Decision) (marker old : String) :
    (attachMarker d marker old).length = old.length + (marker.length + 1) := by
  have hsp : (" " : String).length = 1 := rfl
  unfold attachMarker
  by_cases h : d.position = "before"
  · rw [if_pos h, String.length_append, String.length_append, hsp]; omega
  · rw [if_neg h, String.length_append, String.length_append, hsp]; omega

theorem range_map_shift (n : Int) (k : Nat) :
    (List.range (k + 1)).map (fun i => n + Int.ofNat i)
      = n :: (List.range k).map (fun i => (n + 1) + Int.ofNat i) := by
  rw [List.range_succ_eq_map, List.map_cons, List.map_map]
  refine congrArg₂ _ (by simp) ?_
  apply List.map_congr_left
  intro i _
  simp only [Function.comp_apply, Nat.succ_eq_add_one, Int.ofNat_eq_coe]
  push_cast
  ring

/-- Master description of the injection loop: the produced mapping is the
input mapping extended, in order, with entries numbered consecutively from
`n`, one per processed decision whose element index occurs in the
unplaced-element list; the line count is preserved and every placement adds
one marker plus its separating space to the text. -/
theorem inject_loop_spec (missing : List PlaywrightElement)
    (items : List (Int × Decision)) :
    ∀ (lines : List String) (n : Int) (m : List (Int × ElementMapping))
      (ls : List String) (m' : List (Int × ElementMapping)),
      (∀ j ∈ keys m, j < n) →
      inject_loop missing items lines n m = some (ls, m') →
      ∃ (news : List (Int × ElementMapping)) (markers : List String),
        m' = m ++ news ∧
        news.map Prod.fst = (List.range news.length).map (fun i => n + Int.ofNat i) ∧
        news.length
          = items.countP (fun p => (missing.find? (fun el => el.index == p.1)).isSome) ∧
        markers.length = news.length ∧
        ls.length = lines.length ∧
        sumLen ls = sumLen lines + (markers.map (fun mk => mk.length + 1)).sum ∧
        (∀ q ∈ news, ∃ el ∈ missing, q.2 = mkInjected el q.1) := by
  induction items with
  | nil =>
    intro lines n m ls m' _ hrun
    simp only [inject_loop, Option.some.injEq, Prod.mk.injEq] at hrun
    refine ⟨[], [], ?_, ?_, ?_, ?_, ?_, ?_, ?_⟩ <;>
      simp [hrun.1, hrun.2, List.countP_nil]
  | cons item rest ih =>
    intro lines n m ls m' hlt hrun
    rw [inject_loop] at hrun
    cases hf : missing.find? (fun el => el.index == item.1) with
    | none =>
      rw [hf] at hrun
      rcases ih lines n m ls m' hlt hrun with
        ⟨news, markers, h1, h2, h3, h4, h5, h6, h7⟩
      refine ⟨news, markers, h1, h2, ?_, h4, h5, h6, h7⟩
      rw [List.countP_cons, h3]
      simp [hf]
    | some element =>
      rw [hf] at hrun
      cases hu : pyUpdate lines (clampLine item.2.line lines.length)
          (attachMarker item.2 (markerOf n item.2)) with
      | none => rw [hu] at hrun; exact absurd hrun (by simp)
      | some lines2 =>
        rw [hu] at hrun
        have hfresh : n ∉ keys m := fun hmem => lt_irrefl n (hlt n hmem)
        have hlt2 : ∀ j ∈ keys (dinsert m n (mkInjected element n)), j < n + 1 := by
          intro j hj
          rcases mem_keys_dinsert hj with h | h
          · omega
          · have := hlt j h; omega
        rcases ih lines2 (n + 1) (dinsert m n (mkInjected element n)) ls m' hlt2 hrun with
          ⟨news, markers, h1, h2, h3, h4, h5, h6, h7⟩
        refine ⟨(n, mkInjected element n) :: news, markerOf n item.2 :: markers,
          ?_, ?_, ?_, ?_, ?_, ?_, ?_⟩
        · rw [h1, dinsert_of_not_mem m n _ hfresh]
          simp
        · simp only [List.map_cons, List.length_cons, range_map_shift, h2]
        · simp only [List.length_cons, List.countP_cons, hf, Option.isSome_some, if_true, h3]
        · simp [h4]
        · rw [h5]
          exact pyUpdate_length hu
        · have hstep : sumLen lines2 = sumLen lines + ((markerOf n item.2).length + 1) :=
            pyUpdate_sumLen (fun old => attachMarker_length item.2 (markerOf n item.2) old) hu
          rw [h6, hstep]
          simp only [List.map_cons, List.sum_cons]
          omega
        · intro q hq
          rcases List.mem_cons.mp hq with h | h
          · subst h
            exact ⟨element, List.mem_of_find?_eq_some hf, rfl⟩
          · exact h7 q h

/-- Lifting `inject_loop_spec` to `inject_elements`: fresh numbers start at
`nextNum base` and run consecutively, one per show-decision whose element
exists; the text grows by exactly one marker (plus separating space) per new
mapping entry. -/
theorem inject_elements_spec (lynx_text : String) (missing : List PlaywrightElement)
    (placements : List (Int × Decision)) (base : List (Int × ElementMapping))
    (t : String) (m' : List (Int × ElementMapping))
    (hrun : inject_elements lynx_text missing placements base = some (t, m')) :
    ∃ (news : List (Int × ElementMapping)) (markers : List String),
      m' = base ++ news ∧
      news.map Prod.fst = (List.range news.length).map (fun i => nextNum base + Int.ofNat i) ∧
      news.length = placements.countP
        (fun p => p.2.show_ && (missing.find? (fun el => el.index == p.1)).isSome) ∧
      markers.length = news.length ∧
      t.length = lynx_text.length + (markers.map (fun mk => mk.length + 1)).sum ∧
      (∀ q ∈ news, ∃ el ∈ missing, q.2 = mkInjected el q.1) := by
  unfold inject_elements at hrun
  cases hl : inject_loop missing (sortByLineDesc (placements.filter (fun p => p.2.show_)))
      (splitChar '\n' lynx_text) (nextNum base) base with
  | none => rw [hl] at hrun; exact absurd hrun (by simp)
  | some r =>
    rcases r with ⟨ls, m2⟩
    rw [hl] at hrun
    simp only [Option.some.injEq, Prod.mk.injEq] at hrun
    rcases hrun with ⟨ht, hm⟩
    subst hm
    rcases inject_loop_spec missing _ _ _ _ _ _ (keys_lt_nextNum base) hl with
      ⟨news, markers, h1, h2, h3, h4, h5, h6, h7⟩
    refine ⟨news, markers, h1, h2, ?_, h4, ?_, h7⟩
    · rw [h3]
      have hperm := sortByLineDesc_perm (placements.filter (fun p => p.2.show_))
      rw [hperm.countP_eq]
      rw [List.countP_filter _ _ placements]
      apply List.countP_congr
      intro a _
      rw [Bool.and_comm]
    · have hnempty : splitChar '\n' lynx_text ≠ [] := splitChar_ne_nil '\n' lynx_text
      have hlen1 : 0 < (splitChar '\n' lynx_text).length := List.length_pos.mpr hnempty
      have hlsne : ls ≠ [] := by
        intro hc
        rw [hc] at h5
        simp only [List.length_nil] at h5
        omega
      have hjl := joinLines_length ls hlsne
      have hsplit := splitChar_sumLen lynx_text
      rw [← ht, hjl, h6]
      omega

/-- The injection loop never fails when every processed decision requests a
non-negative line: the clamp keeps the index inside the line range. -/
theorem inject_loop_isSome (missing : List PlaywrightElement)
    (items : List (Int × Decision)) :
    ∀ (lines : List String) (n : Int) (m : List (Int × ElementMapping)),
      lines ≠ [] → (∀ p ∈ items, 0 ≤ p.2.line) →
      (inject_loop missing items lines n m).isSome := by
  induction items with
  | nil => intro lines n m _ _; simp [inject_loop]
  | cons item rest ih =>
    intro lines n m hne hnn
    rw [inject_loop]
    cases hf : missing.find? (fun el => el.index == item.1) with
    | none =>
      exact ih lines n m hne (fun p hp => hnn p (List.mem_cons.mpr (Or.inr hp)))
    | some element =>
      have hlen : 0 < lines.length := List.length_pos.mpr hne
      have hcl := clampLine_mem_range item.2.line lines.length
        (hnn item (List.mem_cons.mpr (Or.inl rfl))) hlen
      have hupd := pyUpdate_isSome_of_range lines (clampLine item.2.line lines.length)
        (attachMarker item.2 (markerOf n item.2)) hcl.1 hcl.2
      cases hu : pyUpdate lines (clampLine item.2.line lines.length)
          (attachMarker item.2 (markerOf n item.2)) with
      | none => rw [hu] at hupd; exact absurd hupd (by simp)
      | some lines2 =>
        have hlen2 : lines2.length = lines.length := pyUpdate_length hu
        have hne2 : lines2 ≠ [] := by
          intro hc
          rw [hc] at hlen2
          simp only [List.length_nil] at hlen2
          omega
        exact ih lines2 (n + 1) (dinsert m n (mkInjected element n)) hne2
          (fun p hp => hnn p (List.mem_cons.mpr (Or.inr hp)))

/-- `inject_elements` never fails when every show-decision requests a
non-negative line. -/
theorem inject_elements_isSome (lynx_text : String) (missing : List PlaywrightElement)
    (placements : List (Int × Decision)) (base : List (Int × ElementMapping))
    (hnn : ∀ p ∈ placements, p.2.show_ = true → 0 ≤ p.2.line) :
    (inject_elements lynx_text missing placements base).isSome := by
  unfold inject_elements
  have hloop := inject_loop_isSome missing
    (sortByLineDesc (placements.filter (fun p => p.2.show_)))
    (splitChar '\n' lynx_text) (nextNum base) base
    (splitChar_ne_nil '\n' lynx_text)
    (by
      intro p hp
      have hperm := sortByLineDesc_perm (placements.filter (fun p => p.2.show_))
      have hmem := hperm.mem_iff.mp hp
      rcases List.mem_filter.mp hmem with ⟨hmem2, hshow⟩
      exact hnn p hmem2 hshow)
  cases hl : inject_loop missing (sortByLineDesc (placements.filter (fun p => p.2.show_)))
      (splitChar '\n' lynx_text) (nextNum base) base with
  | none => rw [hl] at hloop; exact absurd hloop (by simp)
  | some r => cases r; simp

/-! ## The degraded fallback, characterised -/

/-- Concatenation of a list of strings (used to describe the appended marker
lines of the fallback). -/
def strConcat : List String → String
  | [] => ""
  | s :: rest => s ++ strConcat rest

/-- The fallback numbering loop appends one marker line per visible element
and stores one mapping entry per visible element, keyed by the element's
1-based enumeration position — invisible elements advance the counter
without producing anything. -/
theorem fallbackLoop_spec (els : List PlaywrightElement) :
    ∀ (i : Nat) (text : String) (m : List (Int × ElementMapping)),
      (∀ j ∈ keys m, j < Int.ofNat i) →
      fallbackLoop i els text m =
        (text ++ strConcat (((List.enumFrom i els).filter (fun p => p.2.visible)).map
            (fun p => fallbackMarker p.1 p.2)),
         m ++ ((List.enumFrom i els).filter (fun p => p.2.visible)).map
            (fun p => (Int.ofNat p.1, fallbackEntry p.1 p.2))) := by
  induction els with
  | nil =>
    intro i text m _
    simp [fallbackLoop, strConcat, String.append_empty]
  | cons el rest ih =>
    intro i text m hlt
    have henum : List.enumFrom i (el :: rest) = (i, el) :: List.enumFrom (i + 1) rest := rfl
    rw [fallbackLoop, henum]
    by_cases hv : el.visible = true
    · rw [if_pos hv]
      have hfresh : Int.ofNat i ∉ keys m := fun hmem => lt_irrefl _ (hlt _ hmem)
      rw [dinsert_of_not_mem m (Int.ofNat i) (fallbackEntry i el) hfresh]
      have hlt2 : ∀ j ∈ keys (m ++ [(Int.ofNat i, fallbackEntry i el)]), j < Int.ofNat (i + 1) := by
        intro j hj
        simp only [keys, List.map_append, List.mem_append, List.map_cons, List.map_nil,
          List.mem_singleton] at hj
        rcases hj with hj | hj
        · have := hlt j hj
          simp only [Int.ofNat_eq_coe] at this ⊢
          omega
        · subst hj
          simp only [Int.ofNat_eq_coe]
          omega
      rw [ih (i + 1) (text ++ fallbackMarker i el) (m ++ [(Int.ofNat i, fallbackEntry i el)]) hlt2]
      rw [List.filter_cons]
      simp only [hv, if_true, List.map_cons]
      rw [show ∀ a b : List (Int × ElementMapping), ∀ x, (a ++ [x]) ++ b = a ++ (x :: b) from
        fun a b x => by simp]
      rw [String.append_assoc]
      rfl
    · rw [if_neg hv]
      have hlt2 : ∀ j ∈ keys m, j < Int.ofNat (i + 1) := by
        intro j hj
        have := hlt j hj
        simp only [Int.ofNat_eq_coe] at this ⊢
        omega
      rw [ih (i + 1) text m hlt2]
      rw [List.filter_cons]
      simp only [hv]
      rfl

/-- `_playwright_only_fallback`, characterised: entries sit exactly at the
1-based positions of the visible elements among the first 50 snapshot
elements, and one marker line per entry is appended after the wrapped text. -/
theorem playwright_only_fallback_spec (cleanText : String → String) (pw : PlaywrightResult) :
    playwright_only_fallback cleanText pw =
      { text := cleanText pw.content ++
          strConcat (((List.enumFrom 1 (pw.elements.take 50)).filter
            (fun p => p.2.visible)).map (fun p => fallbackMarker p.1 p.2)),
        mapping := ((List.enumFrom 1 (pw.elements.take 50)).filter
            (fun p => p.2.visible)).map (fun p => (Int.ofNat p.1, fallbackEntry p.1 p.2)),
        success := true, error := none } := by
  unfold playwright_only_fallback
  rw [fallbackLoop_spec (pw.elements.take 50) 1 (cleanText pw.content) []
    (by intro j hj; simp [keys] at hj)]
  simp

/-- The fallback mapping's keys are pairwise distinct positive integers. -/
theorem fallback_keys_nodup_pos (cleanText : String → String) (pw : PlaywrightResult) :
    (keys (playwright_only_fallback cleanText pw).mapping).Nodup ∧
    (∀ j ∈ keys (playwright_only_fallback cleanText pw).mapping, 0 < j) := by
  rw [playwright_only_fallback_spec]
  have hsub : List.Sublist
      ((((List.enumFrom 1 (pw.elements.take 50)).filter (fun p => p.2.visible)).map Prod.fst))
      ((List.enumFrom 1 (pw.elements.take 50)).map Prod.fst) :=
    (List.filter_sublist _).map Prod.fst
  rw [List.enumFrom_map_fst] at hsub
  have hnodup : (((List.enumFrom 1 (pw.elements.take 50)).filter
      (fun p => p.2.visible)).map Prod.fst).Nodup :=
    (List.nodup_range' 1 (pw.elements.take 50).length).sublist hsub
  have hmem : ∀ x ∈ ((List.enumFrom 1 (pw.elements.take 50)).filter
      (fun p => p.2.visible)).map Prod.fst, 1 ≤ x := by
    intro x hx
    have := hsub.subset hx
    exact (List.mem_range'_1.mp this).1
  constructor
  · simp only [keys, List.map_map]
    have : (List.map (Prod.fst ∘ fun p => (Int.ofNat p.1, fallbackEntry p.1 p.2))
        ((List.enumFrom 1 (pw.elements.take 50)).filter (fun p => p.2.visible)))
        = (((List.enumFrom 1 (pw.elements.take 50)).filter
            (fun p => p.2.visible)).map Prod.fst).map Int.ofNat := by
      rw [List.map_map]
      rfl
    rw [this]
    exact hnodup.map (fun a b h => Int.ofNat_inj.mp h)
  · intro j hj
    simp only [keys, List.map_map] at hj
    rcases List.mem_map.mp hj with ⟨p, hp, rfl⟩
    have : p.1 ∈ ((List.enumFrom 1 (pw.elements.take 50)).filter
        (fun q => q.2.visible)).map Prod.fst := List.mem_map.mpr ⟨p, hp, rfl⟩
    have := hmem p.1 this
    simp only [Function.comp_apply, Int.ofNat_eq_coe]
    omega

/-! ## The Matcher, characterised -/

/-- The inner scan of `match_by_url` is "first link element in extraction
order whose target URL equals the pair's url exactly". -/
theorem findLink_eq_find? (url : String) (els : List PlaywrightElement) :
    findLink url els = els.find? (fun el => el.type == "a" && el.href == some url) := by
  induction els with
  | nil => rfl
  | cons el rest ih =>
    by_cases h : el.type = "a" ∧ el.href = some url
    · rw [findLink, if_pos h, List.find?_cons_of_pos _ (by simp [h.1, h.2])]
    · rw [findLink, if_neg h, ih,
        List.find?_cons_of_neg _ (by simpa [Bool.and_eq_true, beq_iff_eq] using h)]

theorem mem_keys_matchStep {els : List PlaywrightElement}
    {acc : List (Int × ElementMapping)} {p : Int × String} {j : Int}
    (h : j ∈ keys (matchStep els acc p)) : j ∈ keys acc ∨ j = p.1 := by
  unfold matchStep at h
  cases hf : findLink p.2 els with
  | none => rw [hf] at h; exact Or.inl h
  | some el =>
    rw [hf] at h
    rcases mem_keys_dinsert h with h' | h'
    · exact Or.inr h'
    · exact Or.inl h'

theorem nodup_keys_matchStep (els : List PlaywrightElement)
    (acc : List (Int × ElementMapping)) (p : Int × String)
    (h : (keys acc).Nodup) : (keys (matchStep els acc p)).Nodup := by
  unfold matchStep
  cases findLink p.2 els with
  | none => exact h
  | some el => exact nodup_keys_dinsert acc p.1 _ h

theorem dget_matchStep_ne (els : List PlaywrightElement)
    (acc : List (Int × ElementMapping)) (p : Int × String) (k : Int)
    (h : k ≠ p.1) : dget (matchStep els acc p) k = dget acc k := by
  unfold matchStep
  cases findLink p.2 els with
  | none => rfl
  | some el => exact dget_dinsert_ne acc p.1 k _ h

theorem dget_eq_none_of_not_mem_keys {α : Type} (m : List (Int × α)) (k : Int)
    (h : k ∉ keys m) : dget m k = none := by
  induction m with
  | nil => rfl
  | cons q rest ih =>
    rcases q with ⟨k0, v0⟩
    simp only [keys, List.map_cons, List.mem_cons] at h
    push_neg at h
    rw [dget, if_neg (Ne.symm h.1)]
    exact ih h.2

theorem dget_foldl_matchStep_not_mem (els : List PlaywrightElement) :
    ∀ (links : List (Int × String)) (acc : List (Int × ElementMapping)) (num : Int),
      num ∉ links.map Prod.fst →
      dget (links.foldl (matchStep els) acc) num = dget acc num := by
  intro links
  induction links with
  | nil => intro acc num _; rfl
  | cons p rest ih =>
    intro acc num hmem
    simp only [List.map_cons, List.mem_cons] at hmem
    push_neg at hmem
    rw [List.foldl_cons, ih (matchStep els acc p) num hmem.2,
      dget_matchStep_ne els acc p num hmem.1]

theorem keys_foldl_matchStep (els : List PlaywrightElement) :
    ∀ (links : List (Int × String)) (acc : List (Int × ElementMapping)),
      (keys acc).Nodup →
      (keys (links.foldl (matchStep els) acc)).Nodup ∧
      (∀ j ∈ keys (links.foldl (matchStep els) acc),
        j ∈ keys acc ∨ j ∈ links.map Prod.fst) := by
  intro links
  induction links with
  | nil => intro acc h; exact ⟨h, fun j hj => Or.inl hj⟩
  | cons p rest ih =>
    intro acc h
    rw [List.foldl_cons]
    rcases ih (matchStep els acc p) (nodup_keys_matchStep els acc p h) with ⟨h1, h2⟩
    refine ⟨h1, fun j hj => ?_⟩
    rcases h2 j hj with hj' | hj'
    · rcases mem_keys_matchStep hj' with hj'' | hj''
      · exact Or.inl hj''
      · exact Or.inr (by simp [hj''])
    · exact Or.inr (by simp [hj'])

/-- The base mapping's keys are pairwise distinct. -/
theorem match_by_url_keys_nodup (links : List (Int × String))
    (els : List PlaywrightElement) : (keys (match_by_url links els)).Nodup :=
  (keys_foldl_matchStep els links [] (by simp [keys])).1

/-- Every key of the base mapping is one of the Lynx link numbers. -/
theorem match_by_url_keys_subset (links : List (Int × String))
    (els : List PlaywrightElement) :
    ∀ j ∈ keys (match_by_url links els), j ∈ links.map Prod.fst := by
  intro j hj
  rcases (keys_foldl_matchStep els links [] (by simp [keys])).2 j hj with h | h
  · simp [keys] at h
  · exact h

theorem dget_foldl_matchStep (els : List PlaywrightElement) :
    ∀ (links : List (Int × String)) (acc : List (Int × ElementMapping)),
      (links.map Prod.fst).Nodup →
      (∀ j ∈ keys acc, j ∉ links.map Prod.fst) →
      ∀ num url, (num, url) ∈ links →
        dget (links.foldl (matchStep els) acc) num =
          (findLink url els).map (fun el =>
            { number := num, type := "link",
              text := if el.text = "" then url else el.text,
              selector := some el.selector, url := some url, action := "navigate" }) := by
  intro links
  induction links with
  | nil => intro acc _ _ num url hmem; simp at hmem
  | cons p rest ih =>
    intro acc hnd hdisj num url hmem
    simp only [List.map_cons, List.nodup_cons] at hnd
    rw [List.foldl_cons]
    rcases List.mem_cons.mp hmem with heq | hmem'
    · have hp : p = (num, url) := heq.symm
      subst hp
      have hnum_notin : num ∉ rest.map Prod.fst := hnd.1
      rw [dget_foldl_matchStep_not_mem els rest _ num hnum_notin]
      unfold matchStep
      cases hf : findLink url els with
      | none =>
        have : num ∉ keys acc := fun hk => hdisj num hk (by simp)
        simp [dget_eq_none_of_not_mem_keys acc num this]
      | some el =>
        simp [dget_dinsert_self]
    · refine ih (matchStep els acc p) hnd.2 ?_ num url hmem'
      intro j hj
      rcases mem_keys_matchStep hj with hj' | hj'
      · intro hc
        exact hdisj j hj' (by simp [hc])
      · subst hj'
        exact hnd.1

/-- `match_by_url`, characterised: provided the Lynx numbers are distinct,
the entry at each pair's number is determined by the first link element whose
URL matches exactly, and is absent when none matches. -/
theorem match_by_url_dget (links : List (Int × String)) (els : List PlaywrightElement)
    (hnodup : (links.map Prod.fst).Nodup) :
    ∀ num url, (num, url) ∈ links →
      dget (match_by_url links els) num =
        (els.find? (fun el => el.type == "a" && el.href == some url)).map (fun el =>
          { number := num, type := "link",
            text := if el.text = "" then url else el.text,
            selector := some el.selector, url := some url, action := "navigate" }) := by
  intro num url hmem
  rw [← findLink_eq_find?]
  exact dget_foldl_matchStep els links [] hnodup (by simp [keys]) num url hmem

/-! ## Merge-level helper lemmas -/

/-- Whenever at least one source succeeded, any result the merge produces
reports success. -/
theorem merge_success_of_ok (cleanText : String → String)
    (advisor : String → List PlaywrightElement → LLMOutcome) (use_llm : Bool)
    (lynx : LynxResult) (pw : PlaywrightResult) (r : MergedResult)
    (hok : lynx.success = true ∨ pw.success = true)
    (hrun : merge cleanText advisor use_llm lynx pw = some r) : r.success = true := by
  unfold merge at hrun
  by_cases h1 : lynx.success = false ∧ pw.success = false
  · rcases hok with h | h
    · rw [h1.1] at h; exact absurd h (by simp)
    · rw [h1.2] at h; exact absurd h (by simp)
  · rw [if_neg h1] at hrun
    by_cases h2 : lynx.success = false
    · rw [if_pos h2] at hrun
      have hr : r = playwright_only_fallback cleanText pw := by
        injection hrun with h
        exact h.symm
      rw [hr]
      rfl
    · rw [if_neg h2] at hrun
      by_cases h3 : mergeMissing lynx pw = []
      · rw [if_pos h3] at hrun
        injection hrun with h
        rw [← h]
      · rw [if_neg h3] at hrun
        cases hi : inject_elements lynx.text (mergeMissing lynx pw)
            (mergeAllPlacements advisor use_llm lynx pw) (mergeBase lynx pw) with
        | none => rw [hi] at hrun; exact absurd hrun (by simp)
        | some r2 =>
          rw [hi] at hrun
          injection hrun with h
          rw [← h]

theorem foldl_max_attained (l : List (Int × ElementMapping)) :
    ∀ a : Int, l.foldl (fun acc p => max acc p.1) a = a ∨
      ∃ q ∈ l, l.foldl (fun acc p => max acc p.1) a = q.1 := by
  induction l with
  | nil => intro a; exact Or.inl rfl
  | cons p rest ih =>
    intro a
    rcases ih (max a p.1) with h | ⟨q, hq, h⟩
    · by_cases hc : a ≤ p.1
      · exact Or.inr ⟨p, by simp, by rw [List.foldl_cons, h, max_eq_right hc]⟩
      · exact Or.inl (by rw [List.foldl_cons, h, max_eq_left (le_of_not_le hc)])
    · exact Or.inr ⟨q, by simp [hq], by rw [List.foldl_cons, h]⟩

/-- If all existing numbers are positive, the Injector's fresh numbers start
at least at 1. -/
theorem nextNum_pos (m : List (Int × ElementMapping))
    (hpos : ∀ j ∈ keys m, 0 < j) : 1 ≤ nextNum m := by
  cases m with
  | nil => simp [nextNum, keysMax]
  | cons p rest =>
    simp only [nextNum, keysMax]
    rcases foldl_max_attained rest p.1 with h | ⟨q, hq, h⟩
    · rw [h]
      have := hpos p.1 (by simp [keys])
      omega
    · rw [h]
      have hq1 : q.1 ∈ keys (p :: rest) := by
        simp only [keys, List.map_cons, List.mem_cons]
        exact Or.inr (List.mem_map.mpr ⟨q, hq, rfl⟩)
      have := hpos q.1 hq1
      omega

/-- Keys of the base mapping are positive whenever the Lynx link numbers are. -/
theorem mergeBase_keys_pos (lynx : LynxResult) (pw : PlaywrightResult)
    (hpos : ∀ p ∈ lynx.links, 0 < p.1) :
    ∀ j ∈ keys (mergeBase lynx pw), 0 < j := by
  intro j hj
  have := match_by_url_keys_subset lynx.links pw.elements j hj
  rcases List.mem_map.mp this with ⟨p, hp, rfl⟩
  exact hpos p hp

/-- Every merge outcome's mapping numbers are unique and positive (given
positive text-source link numbers), and — when the text source succeeded, so
that the Injector rather than the fallback numbered new elements — every
number outside the base mapping exceeds every base-mapping number. -/
theorem merge_mapping_invariants (cleanText : String → String)
    (advisor : String → List PlaywrightElement → LLMOutcome) (use_llm : Bool)
    (lynx : LynxResult) (pw : PlaywrightResult) (r : MergedResult)
    (hpos : ∀ p ∈ lynx.links, 0 < p.1)
    (hrun : merge cleanText advisor use_llm lynx pw = some r) :
    (keys r.mapping).Nodup ∧ (∀ j ∈ keys r.mapping, 0 < j) ∧
    (lynx.success = true →
      ∀ j ∈ keys r.mapping, j ∉ keys (mergeBase lynx pw) →
        ∀ i ∈ keys (mergeBase lynx pw), i < j) := by
  have hbase_pos := mergeBase_keys_pos lynx pw hpos
  have hbase_nodup : (keys (mergeBase lynx pw)).Nodup :=
    match_by_url_keys_nodup lynx.links pw.elements
  unfold merge at hrun
  by_cases h1 : lynx.success = false ∧ pw.success = false
  · rw [if_pos h1] at hrun
    injection hrun with h
    rw [← h]
    refine ⟨by simp [keys], by simp [keys], ?_⟩
    intro htrue
    rw [h1.1] at htrue
    exact absurd htrue (by simp)
  · rw [if_neg h1] at hrun
    by_cases h2 : lynx.success = false
    · rw [if_pos h2] at hrun
      injection hrun with h
      rw [← h]
      rcases fallback_keys_nodup_pos cleanText pw with ⟨hn, hp⟩
      refine ⟨hn, hp, ?_⟩
      intro htrue
      rw [h2] at htrue
      exact absurd htrue (by simp)
    · rw [if_neg h2] at hrun
      by_cases h3 : mergeMissing lynx pw = []
      · rw [if_pos h3] at hrun
        injection hrun with h
        rw [← h]
        refine ⟨hbase_nodup, hbase_pos, ?_⟩
        intro _ j hj hnotin _ _
        exact absurd hj hnotin
      · rw [if_neg h3] at hrun
        cases hi : inject_elements lynx.text (mergeMissing lynx pw)
            (mergeAllPlacements advisor use_llm lynx pw) (mergeBase lynx pw) with
        | none => rw [hi] at hrun; exact absurd hrun (by simp)
        | some r2 =>
          rw [hi] at hrun
          injection hrun with h
          rw [← h]
          rcases r2 with ⟨t, m'⟩
          rcases inject_elements_spec lynx.text (mergeMissing lynx pw)
              (mergeAllPlacements advisor use_llm lynx pw) (mergeBase lynx pw) t m' hi with
            ⟨news, markers, hm', hkeys, _, _, _, _⟩
          have hnext1 : 1 ≤ nextNum (mergeBase lynx pw) :=
            nextNum_pos (mergeBase lynx pw) hbase_pos
          have hnews_ge : ∀ j ∈ news.map Prod.fst, nextNum (mergeBase lynx pw) ≤ j := by
            intro j hj
            rw [hkeys] at hj
            rcases List.mem_map.mp hj with ⟨i, _, rfl⟩
            have : (0 : Int) ≤ Int.ofNat i := Int.ofNat_zero_le i
            omega
          have hnews_nodup : (news.map Prod.fst).Nodup := by
            rw [hkeys]
            refine (List.nodup_range _).map ?_
            intro a b hab
            exact Int.ofNat_inj.mp (add_left_cancel hab)
          have hmap : keys m' = keys (mergeBase lynx pw) ++ news.map Prod.fst := by
            rw [hm']
            simp [keys]
          refine ⟨?_, ?_, ?_⟩
          · rw [hmap]
            rw [List.nodup_append]
            refine ⟨hbase_nodup, hnews_nodup, ?_⟩
            intro a ha hb
            have h1 := keys_lt_nextNum (mergeBase lynx pw) a ha
            have h2 := hnews_ge a hb
            omega
          · intro j hj
            rw [hmap] at hj
            rcases List.mem_append.mp hj with hj | hj
            · exact hbase_pos j hj
            · have := hnews_ge j hj
              omega
          · intro _ j hj hnotin i hi'
            rw [hmap] at hj
            rcases List.mem_append.mp hj with hj | hj
            · exact absurd hj hnotin
            · have hge := hnews_ge j hj
              have hlt := keys_lt_nextNum (mergeBase lynx pw) i hi'
              omega

/-! ## Advisor-failure behaviour -/

theorem place_elements_failure (e : String) :
    place_elements (generate_json (LLMOutcome.failure e)) = [] := rfl

theorem place_elements_badJson (raw : String) :
    place_elements (generate_json (LLMOutcome.badJson raw)) = [] := rfl

/-- A failing advisor produces the empty placement dict, whichever way the
guard resolves. -/
theorem mergeLLMPlacements_failure (e : String) (use_llm : Bool)
    (lynx : LynxResult) (pw : PlaywrightResult) :
    mergeLLMPlacements (fun _ _ => LLMOutcome.failure e) use_llm lynx pw = [] := by
  unfold mergeLLMPlacements
  by_cases h : use_llm = true ∧ mergeUnknown lynx pw ≠ []
  · rw [if_pos h]; rfl
  · rw [if_neg h]

theorem mergeLLMPlacements_badJson (raw : String) (use_llm : Bool)
    (lynx : LynxResult) (pw : PlaywrightResult) :
    mergeLLMPlacements (fun _ _ => LLMOutcome.badJson raw) use_llm lynx pw = [] := by
  unfold mergeLLMPlacements
  by_cases h : use_llm = true ∧ mergeUnknown lynx pw ≠ []
  · rw [if_pos h]; rfl
  · rw [if_neg h]

theorem mergeLLMPlacements_disabled (advisor : String → List PlaywrightElement → LLMOutcome)
    (lynx : LynxResult) (pw : PlaywrightResult) :
    mergeLLMPlacements advisor false lynx pw = [] := by
  unfold mergeLLMPlacements
  rw [if_neg (by simp)]

/-- An unreachable/erroring advisor behaves exactly like advisor use disabled
by configuration. -/
theorem merge_failure_eq_disabled (cleanText : String → String) (e : String)
    (advisor : String → List PlaywrightElement → LLMOutcome)
    (lynx : LynxResult) (pw : PlaywrightResult) :
    merge cleanText (fun _ _ => LLMOutcome.failure e) true lynx pw
      = merge cleanText advisor false lynx pw := by
  unfold merge
  have hpl : mergeAllPlacements (fun _ _ => LLMOutcome.failure e) true lynx pw
      = mergeAllPlacements advisor false lynx pw := by
    unfold mergeAllPlacements
    rw [mergeLLMPlacements_failure, mergeLLMPlacements_disabled]
  rw [hpl]

/-- Auto-placing the primary bucket over an accumulator with fresh keys just
appends one decision per primary element. -/
theorem foldl_primary_placements (lynx_text : String) :
    ∀ (prims : List PlaywrightElement) (acc : List (Int × Decision)),
      (∀ el ∈ prims, el.index ∉ keys acc) →
      ((prims.map (fun el => el.index)).Nodup) →
      prims.foldl (fun pl el => dinsert pl el.index (primaryDecision lynx_text el)) acc
        = acc ++ prims.map (fun el => (el.index, primaryDecision lynx_text el)) := by
  intro prims
  induction prims with
  | nil => intro acc _ _; simp
  | cons el rest ih =>
    intro acc hfresh hnd
    simp only [List.map_cons, List.nodup_cons] at hnd
    rw [List.foldl_cons,
      dinsert_of_not_mem acc el.index _ (hfresh el (by simp)),
      ih (acc ++ [(el.index, primaryDecision lynx_text el)]) ?_ hnd.2]
    · simp
    · intro el' hel'
      simp only [keys, List.map_append, List.mem_append, List.map_cons, List.map_nil,
        List.mem_singleton]
      push_neg
      refine ⟨fun hc => hfresh el' (by simp [hel']) hc, fun hc => ?_⟩
      exact hnd.1 (List.mem_map.mpr ⟨el', hel', hc⟩)

/-- With a failing advisor, the merge mapping contains exactly the base
entries plus one entry per primary-bucket element (so `unknown`-bucket
elements are omitted while `primary` ones are still auto-appended). -/
theorem merge_failure_mapping_length (cleanText : String → String) (e : String)
    (lynx : LynxResult) (pw : PlaywrightResult) (r : MergedResult)
    (hl : lynx.success = true)
    (hnd : ((mergeMissing lynx pw).map (fun el => el.index)).Nodup)
    (hrun : merge cleanText (fun _ _ => LLMOutcome.failure e) true lynx pw = some r) :
    r.mapping.length = (mergeBase lynx pw).length + (mergePrimary lynx pw).length := by
  unfold merge at hrun
  rw [if_neg (fun hc => by rw [hl] at hc; exact absurd hc.1 (by simp)),
    if_neg (by rw [hl]; simp)] at hrun
  by_cases h3 : mergeMissing lynx pw = []
  · rw [if_pos h3] at hrun
    injection hrun with h
    rw [← h]
    have : mergePrimary lynx pw = [] := by
      unfold mergePrimary
      rw [h3]
      rfl
    rw [this]
    simp
  · rw [if_neg h3] at hrun
    have hnd_prim : ((mergePrimary lynx pw).map (fun el => el.index)).Nodup := by
      refine hnd.sublist ?_
      exact (List.filter_sublist _).map _
    have hplac : mergeAllPlacements (fun _ _ => LLMOutcome.failure e) true lynx pw
        = (mergePrimary lynx pw).map
            (fun el => (el.index, primaryDecision lynx.text el)) := by
      unfold mergeAllPlacements
      rw [mergeLLMPlacements_failure,
        foldl_primary_placements lynx.text (mergePrimary lynx pw) []
          (by intro el _; simp [keys]) hnd_prim]
      rfl
    cases hi : inject_elements lynx.text (mergeMissing lynx pw)
        (mergeAllPlacements (fun _ _ => LLMOutcome.failure e) true lynx pw)
        (mergeBase lynx pw) with
    | none => rw [hi] at hrun; exact absurd hrun (by simp)
    | some r2 =>
      rw [hi] at hrun
      injection hrun with h
      rw [← h]
      rcases r2 with ⟨t, m'⟩
      rcases inject_elements_spec lynx.text (mergeMissing lynx pw) _ (mergeBase lynx pw)
          t m' hi with ⟨news, markers, hm', _, hcount, _, _, _⟩
      rw [hplac] at hcount
      have hall : ∀ p ∈ (mergePrimary lynx pw).map
          (fun el => (el.index, primaryDecision lynx.text el)),
          (p.2.show_ &&
            ((mergeMissing lynx pw).find? (fun el => el.index == p.1)).isSome) = true := by
        intro p hp
        rcases List.mem_map.mp hp with ⟨el, hel, rfl⟩
        have hmem : el ∈ mergeMissing lynx pw := (List.mem_filter.mp hel).1
        simp only [primaryDecision, Bool.and_eq_true]
        refine ⟨trivial, ?_⟩
        rw [List.find?_isSome]
        exact ⟨el, hmem, by simp⟩
      have hlen : news.length = (mergePrimary lynx pw).length := by
        rw [hcount, List.countP_eq_length.mpr hall, List.length_map]
      rw [hm']
      simp only [List.length_append]
      rw [hlen]

/-! ## Spec-side rule formulations for the classifier and the fallback actions -/

/-- The bucketing rule exactly as claim C4 states it: case-insensitive
substring checks over BOTH the selector and the label, then the kind rules
(the claim's `button` case and its catch-all both yield `unknown`, and it has
no empty-label rule). -/
def claimCategorize (el : PlaywrightElement) : String :=
  if ["ad", "track", "analytics", "pixel"].any
      (fun x => strContains (pyLower el.selector) x || strContains (pyLower el.text) x) then
    "ignore"
  else if ["nav", "header", "menu"].any
      (fun x => strContains (pyLower el.selector) x || strContains (pyLower el.text) x) then
    "navigation"
  else if ["footer", "copyright"].any
      (fun x => strContains (pyLower el.selector) x || strContains (pyLower el.text) x) then
    "secondary"
  else if ["input", "textarea", "select"].contains el.type then
    "primary"
  else
    "unknown"

/-- The bucket table per the amended claim: first matching rule wins; term
checks run over the lowercased selector only; an empty label (unless the kind
is input) means `ignore` before any kind rule; a short-labelled button is
`unknown`; input/textarea/select are `primary`; everything else `unknown`. -/
def bucketRules : List ((PlaywrightElement → Bool) × String) :=
  [ (fun el => ["ad", "track", "analytics", "pixel"].any
        (fun x => strContains (pyLower el.selector) x), "ignore"),
    (fun el => ["nav", "header", "menu"].any
        (fun x => strContains (pyLower el.selector) x), "navigation"),
    (fun el => ["footer", "copyright"].any
        (fun x => strContains (pyLower el.selector) x), "secondary"),
    (fun el => el.text == "" && el.type != "input", "ignore"),
    (fun el => el.type == "button" && decide (el.text.length < 3), "unknown"),
    (fun el => ["input", "textarea", "select"].contains el.type, "primary") ]

/-- The first rule of the table that accepts the element, if any. -/
def firstMatch (el : PlaywrightElement) :
    List ((PlaywrightElement → Bool) × String) → Option String
  | [] => none
  | r :: rest => if r.1 el then some r.2 else firstMatch el rest

/-- First-matching-rule reading of the amended claim. -/
def amendedCategorize (el : PlaywrightElement) : String :=
  (firstMatch el bucketRules).getD "unknown"

theorem categorize_eq_amended (el : PlaywrightElement) :
    categorize_one el = amendedCategorize el := by
  unfold categorize_one amendedCategorize bucketRules
  simp only [firstMatch]
  cases h1 : ["ad", "track", "analytics", "pixel"].any
      (fun x => strContains (pyLower el.selector) x) <;>
    cases h2 : ["nav", "header", "menu"].any
      (fun x => strContains (pyLower el.selector) x) <;>
    cases h3 : ["footer", "copyright"].any
      (fun x => strContains (pyLower el.selector) x) <;>
    cases h4 : el.text == "" && el.type != "input" <;>
    cases h5 : el.type == "button" && decide (el.text.length < 3) <;>
    cases h6 : ["input", "textarea", "select"].contains el.type <;>
    simp [h1, h2, h3, h4, h5, h6]

/-- The action rule of the degraded fallback as a function of the kind alone
(the amended claim: no submit rule in this path). -/
def fallbackActionRule (kind : String) : String :=
  if kind = "a" then "navigate"
  else if kind = "input" ∨ kind = "textarea" then "fill"
  else "click"

theorem fallbackAction_eq_rule (el : PlaywrightElement) :
    fallbackAction el = fallbackActionRule el.type := by
  unfold fallbackAction fallbackActionRule
  by_cases ha : el.type = "a"
  · rw [ha]
    decide
  · by_cases hit : el.type = "input" ∨ el.type = "textarea"
    · rw [if_pos hit, if_neg ha, if_pos hit]
    · rw [if_neg hit, if_neg ha, if_neg hit, if_neg ha]

/-- Filtering an enumeration by a predicate on the payload and projecting the
payload is the same as filtering the underlying list. -/
theorem enumFrom_filter_snd {α : Type} (P : α → Bool) :
    ∀ (i : Nat) (l : List α),
      ((List.enumFrom i l).filter (fun p => P p.2)).map Prod.snd = l.filter P := by
  intro i l
  induction l generalizing i with
  | nil => rfl
  | cons x rest ih =>
    rw [show List.enumFrom i (x :: rest) = (i, x) :: List.enumFrom (i + 1) rest from rfl,
      List.filter_cons, List.filter_cons]
    cases h : P x with
    | true => simp only [h, if_true, List.map_cons, ih (i + 1)]
    | false => simp only [h, Bool.false_eq_true, if_false, ih (i + 1)]

/-- When the text source succeeded, whatever the merge produces extends the
base mapping by a consecutive run of fresh numbers starting at `nextNum`. -/
theorem merge_injected_contiguous (cleanText : String → String)
    (advisor : String → List PlaywrightElement → LLMOutcome) (use_llm : Bool)
    (lynx : LynxResult) (pw : PlaywrightResult) (r : MergedResult)
    (hl : lynx.success = true)
    (hrun : merge cleanText advisor use_llm lynx pw = some r) :
    ∃ k : Nat, keys r.mapping = keys (mergeBase lynx pw) ++
      (List.range k).map (fun i => nextNum (mergeBase lynx pw) + Int.ofNat i) := by
  unfold merge at hrun
  rw [if_neg (fun hc => by rw [hl] at hc; exact absurd hc.1 (by simp)),
    if_neg (by rw [hl]; simp)] at hrun
  by_cases h3 : mergeMissing lynx pw = []
  · rw [if_pos h3] at hrun
    injection hrun with h
    rw [← h]
    exact ⟨0, by simp⟩
  · rw [if_neg h3] at hrun
    cases hi : inject_elements lynx.text (mergeMissing lynx pw)
        (mergeAllPlacements advisor use_llm lynx pw) (mergeBase lynx pw) with
    | none => rw [hi] at hrun; exact absurd hrun (by simp)
    | some r2 =>
      rw [hi] at hrun
      injection hrun with h
      rw [← h]
      rcases r2 with ⟨t, m'⟩
      rcases inject_elements_spec lynx.text (mergeMissing lynx pw)
          (mergeAllPlacements advisor use_llm lynx pw) (mergeBase lynx pw) t m' hi with
        ⟨news, markers, hm', hkeys, _, _, _, _⟩
      refine ⟨news.length, ?_⟩
      rw [hm']
      simp only [keys, List.map_append]
      rw [show List.map Prod.fst news = keys news from rfl, show keys news = news.map Prod.fst from rfl,
        hkeys]

/-! ## Claim theorems

Concrete fixtures used by witnesses and counterexamples. -/

def advFail : String → List PlaywrightElement → LLMOutcome := fun _ _ => .failure "down"

def lynxC1 : LynxResult := ⟨"Hello", [(1, "u")], true⟩

def pwC1 : PlaywrightResult :=
  ⟨[⟨0, "a", "x", some "u", "s", true⟩, ⟨1, "button", "OK", none, "btn", true⟩], "c", true⟩

def advC1 : String → List PlaywrightElement → LLMOutcome :=
  fun _ _ => .good [("el_1", ⟨true, 0, "after", "[N:ok]"⟩)]

def resC1 : MergedResult :=
  ⟨"Hello [2:ok]",
   [(1, ⟨1, "link", "x", some "s", some "u", "navigate"⟩),
    (2, ⟨2, "button", "OK", some "btn", none, "click"⟩)], true, none⟩

/-- **C1.** For every merge call whose text-source link numbers are positive,
all numbers in the produced mapping are unique positive integers; and when the
text source succeeded (so that new elements are numbered by the Injector, not
the fallback), every number not already in the base mapping is strictly
greater than every base-mapping number, the new numbers forming the
consecutive run `nextNum base`, `nextNum base + 1`, … — i.e. starting at max
existing number + 1 and incrementing once per element actually placed. -/
theorem claim_C1_mapping_number_invariants (cleanText : String → String)
    (advisor : String → List PlaywrightElement → LLMOutcome) (use_llm : Bool)
    (lynx : LynxResult) (pw : PlaywrightResult) (r : MergedResult)
    (hpos : ∀ p ∈ lynx.links, 0 < p.1)
    (hrun : merge cleanText advisor use_llm lynx pw = some r) :
    (keys r.mapping).Nodup ∧ (∀ j ∈ keys r.mapping, 0 < j) ∧
    (lynx.success = true →
      ∀ j ∈ keys r.mapping, j ∉ keys (mergeBase lynx pw) →
        ∀ i ∈ keys (mergeBase lynx pw), i < j) ∧
    (lynx.success = true →
      ∃ k : Nat, keys r.mapping = keys (mergeBase lynx pw) ++
        (List.range k).map (fun i => nextNum (mergeBase lynx pw) + Int.ofNat i)) := by
  rcases merge_mapping_invariants cleanText advisor use_llm lynx pw r hpos hrun with
    ⟨h1, h2, h3⟩
  exact ⟨h1, h2, h3,
    fun hl => merge_injected_contiguous cleanText advisor use_llm lynx pw r hl hrun⟩

theorem claim_C1_witness :
    (∀ p ∈ lynxC1.links, 0 < p.1) ∧
    ((keys resC1.mapping).Nodup ∧ (∀ j ∈ keys resC1.mapping, 0 < j) ∧
      (lynxC1.success = true →
        ∀ j ∈ keys resC1.mapping, j ∉ keys (mergeBase lynxC1 pwC1) →
          ∀ i ∈ keys (mergeBase lynxC1 pwC1), i < j) ∧
      (lynxC1.success = true →
        ∃ k : Nat, keys resC1.mapping = keys (mergeBase lynxC1 pwC1) ++
          (List.range k).map (fun i => nextNum (mergeBase lynxC1 pwC1) + Int.ofNat i))) :=
  ⟨by decide,
   claim_C1_mapping_number_invariants id advC1 true lynxC1 pwC1 resC1 (by decide) (by decide)⟩

/-- **C8.** Both sources succeeded and nothing is left unplaced after URL
matching: the merge returns the text-source text and the base mapping
unchanged, with success. -/
theorem claim_C8_short_circuit (cleanText : String → String)
    (advisor : String → List PlaywrightElement → LLMOutcome) (use_llm : Bool)
    (lynx : LynxResult) (pw : PlaywrightResult)
    (hl : lynx.success = true) (_hp : pw.success = true)
    (hm : find_missing_elements pw.elements (match_by_url lynx.links pw.elements) = []) :
    merge cleanText advisor use_llm lynx pw =
      some { text := lynx.text, mapping := match_by_url lynx.links pw.elements,
             success := true, error := none } := by
  have hm' : mergeMissing lynx pw = [] := hm
  unfold merge
  rw [if_neg (fun hc => by rw [hl] at hc; exact absurd hc.1 (by simp)),
    if_neg (by rw [hl]; simp), if_pos hm']
  rfl

theorem claim_C8_witness :
    ((⟨"hi", [], true⟩ : LynxResult).success = true) ∧
    ((⟨[], "c", true⟩ : PlaywrightResult).success = true) ∧
    (find_missing_elements ([] : List PlaywrightElement) (match_by_url [] []) = []) ∧
    merge id advFail true ⟨"hi", [], true⟩ ⟨[], "c", true⟩ =
      some { text := "hi", mapping := match_by_url [] [], success := true, error := none } :=
  ⟨rfl, rfl, rfl, claim_C8_short_circuit id advFail true ⟨"hi", [], true⟩ ⟨[], "c", true⟩ rfl rfl rfl⟩

/-- **C9.** Both sources failing is the unique fatal outcome: it returns
success=false with empty text and mapping; conversely any produced result
with success=false can only come from that state. -/
theorem claim_C9_both_failed_only_fatal (cleanText : String → String)
    (advisor : String → List PlaywrightElement → LLMOutcome) (use_llm : Bool)
    (lynx : LynxResult) (pw : PlaywrightResult) :
    (lynx.success = false → pw.success = false →
      merge cleanText advisor use_llm lynx pw =
        some { text := "", mapping := [], success := false,
               error := some "Both Lynx and Playwright failed" }) ∧
    (∀ r, merge cleanText advisor use_llm lynx pw = some r → r.success = false →
      lynx.success = false ∧ pw.success = false) := by
  constructor
  · intro h1 h2
    unfold merge
    rw [if_pos ⟨h1, h2⟩]
  · intro r hrun hfail
    by_cases hok : lynx.success = true ∨ pw.success = true
    · have := merge_success_of_ok cleanText advisor use_llm lynx pw r hok hrun
      rw [this] at hfail
      exact absurd hfail (by simp)
    · push_neg at hok
      constructor
      · cases h : lynx.success
        · rfl
        · exact absurd h hok.1
      · cases h : pw.success
        · rfl
        · exact absurd h hok.2

theorem claim_C9_witness :
    merge id advFail true ⟨"", [], false⟩ ⟨[], "c", false⟩ =
      some { text := "", mapping := [], success := false,
             error := some "Both Lynx and Playwright failed" } ∧
    ((⟨"", [], false⟩ : LynxResult).success = false ∧
     (⟨[], "c", false⟩ : PlaywrightResult).success = false) :=
  ⟨(claim_C9_both_failed_only_fatal id advFail true ⟨"", [], false⟩ ⟨[], "c", false⟩).1 rfl rfl,
   (claim_C9_both_failed_only_fatal id advFail true ⟨"", [], false⟩ ⟨[], "c", false⟩).2
     ⟨"", [], false, some "Both Lynx and Playwright failed"⟩ (by decide) rfl⟩

/-- **C6.** With distinct text-source numbers, the entry stored for a
(number, url) pair is determined by the first snapshot element of kind link
in extraction order whose URL equals the pair's url exactly: action is
navigate, the label is the element's label or the url when that label is
empty; when no element matches, the number is absent from the mapping. -/
theorem claim_C6_url_matching (links : List (Int × String))
    (els : List PlaywrightElement)
    (hnodup : (links.map Prod.fst).Nodup) (num : Int) (url : String)
    (hmem : (num, url) ∈ links) :
    dget (match_by_url links els) num =
      (els.find? (fun el => el.type == "a" && el.href == some url)).map (fun el =>
        { number := num, type := "link",
          text := if el.text = "" then url else el.text,
          selector := some el.selector, url := some url, action := "navigate" }) :=
  match_by_url_dget links els hnodup num url hmem

theorem claim_C6_witness :
    ((([(1, "u"), (2, "w")] : List (Int × String)).map Prod.fst).Nodup) ∧
    ((1, "u") ∈ ([(1, "u"), (2, "w")] : List (Int × String))) ∧
    dget (match_by_url [(1, "u"), (2, "w")]
        [⟨0, "a", "", some "u", "s", true⟩]) 1 =
      some { number := 1, type := "link", text := "u",
             selector := some "s", url := some "u", action := "navigate" } ∧
    dget (match_by_url [(1, "u"), (2, "w")]
        [⟨0, "a", "", some "u", "s", true⟩]) 2 = none :=
  ⟨by decide, by decide,
   (claim_C6_url_matching [(1, "u"), (2, "w")] [⟨0, "a", "", some "u", "s", true⟩]
     (by decide) 1 "u" (by decide)).trans (by decide),
   (claim_C6_url_matching [(1, "u"), (2, "w")] [⟨0, "a", "", some "u", "s", true⟩]
     (by decide) 2 "w" (by decide)).trans (by decide)⟩

/-- **C7.** An unreachable/erroring advisor — and likewise malformed JSON —
yields the empty placement set; advisor failure is indistinguishable from
advisor use disabled by configuration; the merge still succeeds, and its
mapping holds exactly the base entries plus one entry per primary-bucket
element (so unknown-bucket elements are omitted while primary ones are still
auto-appended). -/
theorem claim_C7_advisor_failure_degrades_gracefully (cleanText : String → String)
    (e raw : String) (advisor : String → List PlaywrightElement → LLMOutcome)
    (lynx : LynxResult) (pw : PlaywrightResult) (r : MergedResult)
    (hl : lynx.success = true)
    (hnd : ((mergeMissing lynx pw).map (fun el => el.index)).Nodup)
    (hrun : merge cleanText (fun _ _ => LLMOutcome.failure e) true lynx pw = some r) :
    place_elements (generate_json (LLMOutcome.failure e)) = [] ∧
    place_elements (generate_json (LLMOutcome.badJson raw)) = [] ∧
    merge cleanText (fun _ _ => LLMOutcome.failure e) true lynx pw
      = merge cleanText advisor false lynx pw ∧
    r.success = true ∧
    r.mapping.length = (mergeBase lynx pw).length + (mergePrimary lynx pw).length :=
  ⟨place_elements_failure e, place_elements_badJson raw,
   merge_failure_eq_disabled cleanText e advisor lynx pw,
   merge_success_of_ok cleanText (fun _ _ => LLMOutcome.failure e) true lynx pw r
     (Or.inl hl) hrun,
   merge_failure_mapping_length cleanText e lynx pw r hl hnd hrun⟩

def lynxC7 : LynxResult := ⟨"Hello", [], true⟩

def pwC7 : PlaywrightResult := ⟨[⟨0, "input", "q", none, "inp", true⟩], "c", true⟩

def resC7 : MergedResult :=
  ⟨"Hello [1:input]", [(1, ⟨1, "input", "q", some "inp", none, "fill"⟩)], true, none⟩

theorem claim_C7_witness :
    (lynxC7.success = true) ∧
    (((mergeMissing lynxC7 pwC7).map (fun el => el.index)).Nodup) ∧
    (place_elements (generate_json (LLMOutcome.failure "down")) = [] ∧
     place_elements (generate_json (LLMOutcome.badJson "not json")) = [] ∧
     merge id (fun _ _ => LLMOutcome.failure "down") true lynxC7 pwC7
       = merge id advC1 false lynxC7 pwC7 ∧
     resC7.success = true ∧
     resC7.mapping.length = (mergeBase lynxC7 pwC7).length + (mergePrimary lynxC7 pwC7).length) :=
  ⟨rfl, by decide,
   claim_C7_advisor_failure_degrades_gracefully id "down" "not json" advC1
     lynxC7 pwC7 resC7 rfl (by decide) (by decide)⟩

/-- **C10.** A show-decision whose element index is not in the unplaced list
is skipped before a number is allocated: the injected numbers form the
contiguous run `nextNum base`, `nextNum base + 1`, …, one per decision whose
element was found, and the count of new mapping entries equals the count of
markers inserted into the text (each marker adding its length plus one
separating space to the text). -/
theorem claim_C10_skipped_decisions_and_contiguity (lynx_text : String)
    (missing : List PlaywrightElement) (placements : List (Int × Decision))
    (base : List (Int × ElementMapping)) (t : String)
    (m' : List (Int × ElementMapping))
    (hrun : inject_elements lynx_text missing placements base = some (t, m')) :
    ∃ k : Nat,
      keys m' = keys base ++
        (List.range k).map (fun i => nextNum base + Int.ofNat i) ∧
      k = placements.countP
        (fun p => p.2.show_ && (missing.find? (fun el => el.index == p.1)).isSome) ∧
      m'.length = base.length + k ∧
      ∃ markers : List String, markers.length = k ∧
        t.length = lynx_text.length + ((markers.map (fun mk => mk.length + 1)).sum) := by
  rcases inject_elements_spec lynx_text missing placements base t m' hrun with
    ⟨news, markers, hm', hkeys, hcount, hmlen, htlen, _⟩
  refine ⟨news.length, ?_, hcount.symm ▸ rfl, ?_, markers, hmlen, htlen⟩
  · rw [hm']
    simp only [keys, List.map_append]
    rw [show List.map Prod.fst news = news.map Prod.fst from rfl, hkeys]
  · rw [hm', List.length_append]

theorem claim_C10_witness :
    (inject_elements "Hello" [⟨1, "button", "OK", none, "btn", true⟩]
        [(1, ⟨true, 0, "after", "[N:ok]"⟩), (7, ⟨true, 0, "after", "[N:gone]"⟩)] [] =
      some ("Hello [1:ok]", [(1, ⟨1, "button", "OK", some "btn", none, "click"⟩)])) ∧
    (∃ k : Nat,
      keys [(1, (⟨1, "button", "OK", some "btn", none, "click"⟩ : ElementMapping))] =
        keys ([] : List (Int × ElementMapping)) ++
          (List.range k).map (fun i => nextNum [] + Int.ofNat i) ∧
      k = ([(1, (⟨true, 0, "after", "[N:ok]"⟩ : Decision)),
            (7, ⟨true, 0, "after", "[N:gone]"⟩)] : List (Int × Decision)).countP
        (fun p => p.2.show_ &&
          (([⟨1, "button", "OK", none, "btn", true⟩] :
            List PlaywrightElement).find? (fun el => el.index == p.1)).isSome) ∧
      ([(1, (⟨1, "button", "OK", some "btn", none, "click"⟩ : ElementMapping))]).length
        = ([] : List (Int × ElementMapping)).length + k ∧
      ∃ markers : List String, markers.length = k ∧
        ("Hello [1:ok]").length = ("Hello").length +
          ((markers.map (fun mk => mk.length + 1)).sum)) :=
  ⟨by decide,
   claim_C10_skipped_decisions_and_contiguity "Hello"
     [⟨1, "button", "OK", none, "btn", true⟩]
     [(1, ⟨true, 0, "after", "[N:ok]"⟩), (7, ⟨true, 0, "after", "[N:gone]"⟩)] []
     "Hello [1:ok]" [(1, ⟨1, "button", "OK", some "btn", none, "click"⟩)] (by decide)⟩

/-- **C3, counterexample.** The Injector clamps only the upper bound: a
show=true decision requesting line −2 on a one-line document is not clamped
into range, the Python list assignment raises `IndexError`, and the whole
injection fails (`none`) — refuting "an out-of-range line value never causes
a failure". -/
theorem claim_C3_counterexample :
    inject_elements "a" [⟨0, "button", "xx", none, "b", true⟩]
      [(0, ⟨true, -2, "after", "[N]"⟩)] [] = none := by decide

/-- **C3, amended.** For every show=true decision whose requested line is
non-negative, injection cannot fail, and the clamp sends any non-negative
request into the valid range [0, line count): requests at or beyond the line
count become the last line index, smaller ones are kept. Negative requests
are not clamped (those in [−count, −1] index from the end; smaller ones
fail). -/
theorem claim_C3_clamp_nonnegative_lines (lynx_text : String)
    (missing : List PlaywrightElement) (placements : List (Int × Decision))
    (base : List (Int × ElementMapping))
    (hnn : ∀ p ∈ placements, p.2.show_ = true → 0 ≤ p.2.line) :
    (inject_elements lynx_text missing placements base).isSome ∧
    (∀ line : Int, ∀ nlines : Nat, 0 ≤ line → 0 < nlines →
      0 ≤ clampLine line nlines ∧ clampLine line nlines < (nlines : Int)) :=
  ⟨inject_elements_isSome lynx_text missing placements base hnn,
   fun line nlines h0 h1 => clampLine_mem_range line nlines h0 h1⟩

theorem claim_C3_witness :
    (∀ p ∈ ([(0, ⟨true, 99, "after", "[N]"⟩)] : List (Int × Decision)),
      p.2.show_ = true → 0 ≤ p.2.line) ∧
    ((inject_elements "a\nb" [⟨0, "button", "xx", none, "b", true⟩]
        [(0, ⟨true, 99, "after", "[N]"⟩)] []).isSome ∧
     (∀ line : Int, ∀ nlines : Nat, 0 ≤ line → 0 < nlines →
        0 ≤ clampLine line nlines ∧ clampLine line nlines < (nlines : Int))) :=
  ⟨by decide,
   claim_C3_clamp_nonnegative_lines "a\nb" [⟨0, "button", "xx", none, "b", true⟩]
     [(0, ⟨true, 99, "after", "[N]"⟩)] [] (by decide)⟩

def pwGap : PlaywrightResult :=
  ⟨[⟨0, "a", "x", some "u", "s", false⟩, ⟨1, "a", "y", some "v", "s2", true⟩], "c", true⟩

def pwBig : PlaywrightResult :=
  ⟨(List.range 51).map (fun i => ⟨Int.ofNat i, "a", "t", none, "s", decide (i ≠ 0)⟩),
   "c", true⟩

/-- **C2, counterexample.** The fallback numbers the first 50 elements before
filtering for visibility, so an invisible first element leaves number 1
unused: on a snapshot of one invisible and one visible element the single
entry carries number 2, not 1 — refuting "numbered sequentially starting at 1
with no gaps". And with 51 elements of which elements 2…51 are visible
(V = 50 visible elements), only 49 entries are produced, not min(50, V) = 50. -/
theorem claim_C2_counterexample :
    ((playwright_only_fallback (fun _ => "W") pwGap).mapping).map Prod.fst = [2] ∧
    (([2] : List Int) ≠ [1]) ∧
    ((playwright_only_fallback (fun _ => "W") pwBig).mapping).length = 49 ∧
    min 50 ((pwBig.elements.filter (fun el => el.visible)).length) = 50 := by decide

/-- **C2, amended.** When the text fetch fails and the snapshot fetch
succeeds, the merge returns the degraded fallback, whose mapping has one
entry per visible element among the first 50 snapshot elements in extraction
order; each entry is numbered by that element's 1-based enumeration position
(so invisible elements leave gaps and numbering need not start at 1), one
bracketed marker line per entry is appended after the wrapped text, and the
entry count is the number of visible elements among the first 50. -/
theorem claim_C2_degraded_fallback (cleanText : String → String)
    (advisor : String → List PlaywrightElement → LLMOutcome) (use_llm : Bool)
    (lynx : LynxResult) (pw : PlaywrightResult)
    (hl : lynx.success = false) (hp : pw.success = true) :
    merge cleanText advisor use_llm lynx pw = some (playwright_only_fallback cleanText pw) ∧
    (playwright_only_fallback cleanText pw).mapping =
      ((List.enumFrom 1 (pw.elements.take 50)).filter (fun p => p.2.visible)).map
        (fun p => (Int.ofNat p.1, fallbackEntry p.1 p.2)) ∧
    (playwright_only_fallback cleanText pw).text =
      cleanText pw.content ++ strConcat
        (((List.enumFrom 1 (pw.elements.take 50)).filter (fun p => p.2.visible)).map
          (fun p => fallbackMarker p.1 p.2)) ∧
    (playwright_only_fallback cleanText pw).mapping.length
      = ((pw.elements.take 50).filter (fun el => el.visible)).length := by
  refine ⟨?_, ?_, ?_, ?_⟩
  · unfold merge
    rw [if_neg (fun hc => by rw [hp] at hc; exact absurd hc.2 (by simp)), if_pos hl]
  · rw [playwright_only_fallback_spec]
  · rw [playwright_only_fallback_spec]
  · rw [playwright_only_fallback_spec]
    show (((List.enumFrom 1 (pw.elements.take 50)).filter (fun p => p.2.visible)).map
      (fun p => (Int.ofNat p.1, fallbackEntry p.1 p.2))).length = _
    rw [List.length_map, ← enumFrom_filter_snd (fun el : PlaywrightElement => el.visible)
      1 (pw.elements.take 50), List.length_map]

theorem claim_C2_witness :
    ((⟨"", [], false⟩ : LynxResult).success = false) ∧ (pwGap.success = true) ∧
    (merge id advFail true ⟨"", [], false⟩ pwGap =
        some (playwright_only_fallback id pwGap) ∧
      (playwright_only_fallback id pwGap).mapping =
        ((List.enumFrom 1 (pwGap.elements.take 50)).filter (fun p => p.2.visible)).map
          (fun p => (Int.ofNat p.1, fallbackEntry p.1 p.2)) ∧
      (playwright_only_fallback id pwGap).text =
        id pwGap.content ++ strConcat
          (((List.enumFrom 1 (pwGap.elements.take 50)).filter (fun p => p.2.visible)).map
            (fun p => fallbackMarker p.1 p.2)) ∧
      (playwright_only_fallback id pwGap).mapping.length
        = ((pwGap.elements.take 50).filter (fun el => el.visible)).length) :=
  ⟨rfl, rfl, claim_C2_degraded_fallback id advFail true ⟨"", [], false⟩ pwGap rfl rfl⟩

def elSubmit : PlaywrightElement := ⟨0, "button", "Submit", none, "b", true⟩

def pwSubmit : PlaywrightResult := ⟨[elSubmit], "c", true⟩

/-- **C5, counterexample.** The fallback's action rules are NOT the same as
the Injector's: a visible button labelled "Submit" receives action `click` in
the degraded fallback, while the Injector's kind rules give it `submit`. -/
theorem claim_C5_counterexample :
    (playwright_only_fallback (fun _ => "W") pwSubmit).mapping =
      [(1, ⟨1, "button", "Submit", some "b", none, "click"⟩)] ∧
    injectorAction elSubmit = "submit" ∧
    ("click" : String) ≠ "submit" := by decide

/-- **C5, amended.** In the degraded fallback each entry's action depends on
the element kind alone: link → navigate, input/textarea → fill, everything
else (buttons — submit-labelled or not — and selects) → click. -/
theorem claim_C5_fallback_actions (cleanText : String → String)
    (pw : PlaywrightResult) (n : Int) (em : ElementMapping)
    (hmem : (n, em) ∈ (playwright_only_fallback cleanText pw).mapping) :
    em.action = fallbackActionRule em.type := by
  rw [playwright_only_fallback_spec] at hmem
  rcases List.mem_map.mp hmem with ⟨p, _, heq⟩
  have hem : em = fallbackEntry p.1 p.2 := (congrArg Prod.snd heq).symm
  rw [hem]
  exact fallbackAction_eq_rule p.2

theorem claim_C5_witness :
    ((1, (⟨1, "button", "Submit", some "b", none, "click"⟩ : ElementMapping)) ∈
      (playwright_only_fallback (fun _ => "W") pwSubmit).mapping) ∧
    (⟨1, "button", "Submit", some "b", none, "click"⟩ : ElementMapping).action
      = fallbackActionRule (⟨1, "button", "Submit", some "b", none, "click"⟩ : ElementMapping).type :=
  ⟨by decide,
   claim_C5_fallback_actions (fun _ => "W") pwSubmit 1
     ⟨1, "button", "Submit", some "b", none, "click"⟩ (by decide)⟩

def elMenu : PlaywrightElement := ⟨0, "button", "main menu", none, "x", true⟩

def elEmptyTA : PlaywrightElement := ⟨1, "textarea", "", none, "y", true⟩

/-- **C4, counterexample.** The claim's bucketing rule (substring checks over
BOTH selector and label, and no empty-label rule) disagrees with the code: a
button labelled "main menu" (selector without nav terms) would be
`navigation` per the claim but the code yields `unknown` — the label is never
searched for terms; and an empty-labelled textarea would be `primary` per the
claim but the code yields `ignore` via its empty-label rule. -/
theorem claim_C4_counterexample :
    claimCategorize elMenu = "navigation" ∧ categorize_one elMenu = "unknown" ∧
    claimCategorize elEmptyTA = "primary" ∧ categorize_one elEmptyTA = "ignore" := by
  decide

/-- **C4, amended.** The Classifier buckets each unplaced element by the
first matching rule of this table: case-insensitive substring checks over the
SELECTor only (ad/tracking → ignore, nav/header/menu → navigation,
footer/copyright → secondary), then empty label with kind ≠ input → ignore,
then kind button with label shorter than 3 characters → unknown, then kind
input/textarea/select → primary, and everything else → unknown; the
per-element rule is applied to each element, keyed by its index. -/
theorem claim_C4_classifier_rule (el : PlaywrightElement)
    (els : List PlaywrightElement) :
    categorize_one el = amendedCategorize el ∧
    categorize_elements els
      = els.foldl (fun cats e => dinsert cats e.index (amendedCategorize e)) [] := by
  constructor
  · exact categorize_eq_amended el
  · unfold categorize_elements
    congr 1
    funext cats e
    rw [categorize_eq_amended e]

end TuiBrowser
